import Mathlib

/-!
Shallow embedding of `src/chunker.py` (discord-upload-chunker).

Bytes are modelled as `Nat` (Python `bytes` elements), byte strings as
`List Nat`.  The chunk-file set on disk is a `List (List Nat)` where index
`i` holds the content of the file `chunk-i`; a list of length `k` means
exactly the files `chunk-0 … chunk-(k-1)` exist.  Output-directory state
for decode is the list of existing sub-directory paths, since the only
filesystem fact decode depends on is whether a written file's parent
directory exists.
-/

namespace Chunkerpy

/-- Errors raised by `_Chunker.read_from_path` (lines 47-51):
`Exception("Already closed! ...")` and `KeyError` for a duplicate name. -/
inductive EncErr
  | sessionClosed
  | duplicateName
deriving DecidableEq, Repr

/-- Errors arising during decode: `ValueError` for a corrupt header
(line 236), `FileNotFoundError` opening a chunk file (line 171),
`FileNotFoundError` opening an output file whose parent directory does not
exist (line 177), and the `Exception` of line 175 after close. -/
inductive DecErr
  | headerCorrupt
  | chunkMissing
  | outFileNotFound
  | sessionClosed
deriving DecidableEq, Repr

/-- State of `_Chunker` (lines 14-81).  `closed_chunks` holds the contents
of the chunk files already closed, `current_chunk` the content of the
currently open chunk file; `chunk_names` the names of all chunk files
opened so far (line 42: `f"chunk-{index}"`).  `this_chunk_bytes` and
`byte_index` mirror the source's counters. -/
structure Chunker where
  bytes_per_chunk : Nat
  chunk_index : Nat
  byte_index : Nat
  file_positions : List (String × Nat)
  can_write : Bool
  closed_chunks : List (List Nat)
  chunk_names : List String
  this_chunk_bytes : Nat
  current_chunk : List Nat
deriving DecidableEq, Repr

/-- `_Chunker.__switch_to_next_chunk` (lines 37-44): close the current
chunk, bump the index, open `chunk-<index>` fresh. -/
def switchToNextChunk (c : Chunker) : Chunker :=
  { c with
    chunk_index := c.chunk_index + 1,
    closed_chunks := c.closed_chunks ++ [c.current_chunk],
    chunk_names := c.chunk_names ++ ["chunk-" ++ toString (c.chunk_index + 1)],
    this_chunk_bytes := 0,
    current_chunk := [] }

/-- `_Chunker.__init__` (lines 15-23): the constructor sets
`chunk_index = -1`, `chunk = None` and then calls
`__switch_to_next_chunk`, which (with `chunk = None`) closes nothing and
opens `chunk-0`.  This is the resulting state, with
`bytes_per_chunk` taken directly in bytes (line 16 computes it as
`mb_per_chunk * 1024 * 1024`). -/
def Chunker.init (bpc : Nat) : Chunker :=
  { bytes_per_chunk := bpc, chunk_index := 0, byte_index := 0,
    file_positions := [], can_write := true, closed_chunks := [],
    chunk_names := ["chunk-0"], this_chunk_bytes := 0, current_chunk := [] }

/-- Line 16: `self.__bytes_per_chunk = mb_per_chunk * 1024 * 1024`. -/
def Chunker.ofMb (mb : Nat) : Chunker :=
  Chunker.init (mb * 1024 * 1024)

/-- `file.read(n)` on the source file inside `read_from_path` (line 56):
a read on a regular file returns the next `min n remaining` bytes, where
`n` is the free space left in the current chunk. -/
def sourceRead (c : Chunker) (data : List Nat) : List Nat :=
  data.take (c.bytes_per_chunk - c.this_chunk_bytes)

/-- The `while (b:=file.read(n))` loop of `read_from_path` (lines 54-65):
the loop stops when the read is empty.  After a write that fills the chunk
exactly (`if not n`), the writer switches to the next chunk at once,
before knowing whether more bytes follow. -/
def readLoop (c : Chunker) (data : List Nat) : Chunker :=
  if (sourceRead c data).length = 0 then c
  else
    let c1 : Chunker :=
      { c with
        this_chunk_bytes := c.this_chunk_bytes + (sourceRead c data).length,
        byte_index := c.byte_index + (sourceRead c data).length,
        current_chunk := c.current_chunk ++ sourceRead c data }
    let c2 := if c1.bytes_per_chunk - c1.this_chunk_bytes = 0 then switchToNextChunk c1 else c1
    readLoop c2 (data.drop (sourceRead c data).length)
termination_by data.length
decreasing_by
  have hble : (sourceRead c data).length ≤ data.length := by
    simp only [sourceRead, List.length_take]
    exact min_le_right _ _
  simp only [List.length_drop]
  omega

/-- `_Chunker.read_from_path` (lines 46-65): reject when closed, reject a
duplicate name (before recording anything), otherwise record the position
at the current `byte_index` and stream the file's bytes. -/
def Chunker.read_from_path (c : Chunker) (name : String) (data : List Nat) :
    Except EncErr Chunker :=
  if c.can_write = false then .error .sessionClosed
  else if (c.file_positions.map Prod.fst).contains name then .error .duplicateName
  else .ok (readLoop
    { c with file_positions := c.file_positions ++ [(name, c.byte_index)] } data)

/-- `_Chunker.close` (lines 67-70): forbid further writes and close the
current chunk file (its content stays on disk as the final chunk). -/
def Chunker.close (c : Chunker) : Chunker :=
  { c with can_write := false }

/-- The header record written by `write_header_file` (lines 72-81). -/
structure Header where
  bytes_per_chunk : Nat
  positions : List (String × Nat)
  total_bytes : Nat
deriving DecidableEq, Repr

/-- The `for name in infiles` loop of `encode` (lines 121-130): feed each
(name, content) pair to the chunker; the first exception aborts the loop
(`read_from_path` raises before mutating any state in its failure cases,
so the chunker state at the catch is the pre-call state). -/
def encodeLoop (c : Chunker) : List (String × List Nat) → Chunker × Option EncErr
  | [] => (c, none)
  | (name, data) :: rest =>
    match c.read_from_path name data with
    | .error e => (c, some e)
    | .ok c2 => encodeLoop c2 rest

/-- Result of one encode session: the error flag `encode` returns
(line 142), the caught exception, the chunk files left on disk (contents,
indexed by chunk number, and names), the recorded positions and total, and
the header file if one was written. -/
structure EncodeResult where
  errored : Bool
  error : Option EncErr
  chunks : List (List Nat)
  chunk_names : List String
  positions : List (String × Nat)
  total_bytes : Nat
  header : Option Header
deriving DecidableEq, Repr

/-- `encode` (lines 99-142), at the byte level: run the loop over the
enumerated (name, content) pairs, always `close` the chunker (the
`finally` block, line 133), and write the header file only when no
exception occurred (lines 135-136).  `capacity` is
`mb_per_chunk * 1024 * 1024` of line 16, taken here directly in bytes. -/
def encode (files : List (String × List Nat)) (bpc : Nat) : EncodeResult :=
  let r := encodeLoop (Chunker.init bpc) files
  let c := Chunker.close r.1
  { errored := r.2.isSome,
    error := r.2,
    chunks := c.closed_chunks ++ [c.current_chunk],
    chunk_names := c.chunk_names,
    positions := c.file_positions,
    total_bytes := c.byte_index,
    header := if r.2.isSome then none
              else some { bytes_per_chunk := bpc, positions := c.file_positions,
                          total_bytes := c.byte_index } }

/-! ## Decoder -/

/-- The header file as parsed JSON (line 231): each of the three keys may
be absent.  Offsets and sizes are JSON integers; the values every claim
touches are non-negative, so they are carried as `Nat` (where Python could
see a negative difference the surrounding comment justifies the match). -/
structure RawHeader where
  bytes_per_chunk : Option Nat
  positions : Option (List (String × Nat))
  total_bytes : Option Nat
deriving DecidableEq, Repr

/-- Lines 230-236: read `bytes_per_chunk` (floor-divided by 1024*1024),
then `positions`, then `total_bytes`; any missing key raises inside the
`try` and is re-raised as `ValueError("Header file corrupted or invalid")`. -/
def parseHeader (raw : RawHeader) : Except DecErr (Nat × List (String × Nat) × Nat) :=
  match raw.bytes_per_chunk with
  | none => .error .headerCorrupt
  | some b =>
    match raw.positions with
    | none => .error .headerCorrupt
    | some ps =>
      match raw.total_bytes with
      | none => .error .headerCorrupt
      | some tb => .ok (b / (1024 * 1024), ps, tb)

/-- One step of Python's stable `sorted(items, key=lambda i: i[1])`
(line 239): insert `x` after every element whose offset is ≤ its own, so
elements with equal offsets keep their stored order. -/
def insertByOffset (x : String × Nat) : List (String × Nat) → List (String × Nat)
  | [] => [x]
  | y :: ys => if x.2 < y.2 then x :: y :: ys else y :: insertByOffset x ys

/-- Line 239: `sorted(file_positions.items(), key=lambda i: i[1])`, a
stable sort by offset. -/
def sortPositions (l : List (String × Nat)) : List (String × Nat) :=
  l.foldl (fun acc x => insertByOffset x acc) []

/-- State of `_Dechunker` (lines 148-205).  `bytes_per_chunk` is stored by
the constructor (line 150) and never read afterwards.  `pos` is the read
position of the currently open chunk file; `chunk_open` whether the
current chunk file handle is open. -/
structure Dechunker where
  bytes_per_chunk : Nat
  chunk_index : Nat
  pos : Nat
  can_read : Bool
  chunk_open : Bool
deriving DecidableEq, Repr

/-- `_Dechunker.__init__` (lines 149-155): opens `chunk-0`; `none` models
the `FileNotFoundError` when it does not exist (which `decode` does not
catch: the constructor call on line 243 sits before the `try`). -/
def Dechunker.init (chunks : List (List Nat)) (bpc : Nat) : Option Dechunker :=
  if chunks.length = 0 then none
  else some { bytes_per_chunk := bpc, chunk_index := 0, pos := 0,
              can_read := true, chunk_open := true }

/-- `self.__chunk.read(n)` (line 179): a read on the current chunk file
returns its next `min n remaining` bytes, starting at position `d.pos`. -/
def chunkRead (chunks : List (List Nat)) (d : Dechunker) (n : Nat) : List Nat :=
  ((chunks.getD d.chunk_index []).drop d.pos).take n

/-- The `while n > 0` loop of `write_n_bytes` (lines 178-183): an empty
read triggers `__switch_to_next_chunk` (lines 165-171), which closes the
current chunk and opens the next one, raising `FileNotFoundError` if it
is absent (the old handle is already closed at that point).  `acc` is the
content written to the output file so far; on an error it is what remains
on disk in the partially written file. -/
def writeLoop (chunks : List (List Nat)) (d : Dechunker) (n : Nat) (acc : List Nat) :
    Dechunker × List Nat × Option DecErr :=
  if n = 0 then (d, acc, none)
  else
    if (chunkRead chunks d n).length = 0 then
      if d.chunk_index + 1 < chunks.length then
        writeLoop chunks { d with chunk_index := d.chunk_index + 1, pos := 0 } n acc
      else
        ({ d with chunk_open := false }, acc, some .chunkMissing)
    else
      writeLoop chunks { d with pos := d.pos + (chunkRead chunks d n).length }
        (n - (chunkRead chunks d n).length) (acc ++ chunkRead chunks d n)
termination_by (n, chunks.length - d.chunk_index)
decreasing_by
  · apply Prod.Lex.right
    omega
  · apply Prod.Lex.left
    omega

/-- Parent directory of a relative path — the characters before the last
`/` — if the path has directory components: the target of the existence
check that `open(outpath, 'wb')` (line 177) performs implicitly. -/
def parentDirOf (name : String) : Option String :=
  let cs := name.toList
  if cs.contains '/' then
    some (String.mk (((cs.reverse.dropWhile (· ≠ '/')).drop 1).reverse))
  else none

/-- Whether `open(os.path.join(outdir, name), 'wb')` succeeds given the
set `dirs` of sub-directory paths existing under the output directory:
it does iff the name has no directory components or its parent directory
exists.  `decode` never creates directories, so `dirs` is constant. -/
def parentOk (dirs : List String) (name : String) : Bool :=
  match parentDirOf name with
  | none => true
  | some p => dirs.contains p

/-- Lines 249-252: `ends` is the next entry's offset, or `total_bytes`
for the last entry. -/
def endsOf (total : Nat) : List (String × Nat) → Nat
  | [] => total
  | (_, off2) :: _ => off2

/-- The `for i in range(len(file_positions))` loop of `decode`
(lines 246-257) together with `write_n_bytes` (lines 173-183): for each
entry the length is `ends - off` (Python computes it as a signed integer;
a negative length makes `while n > 0` write nothing, exactly as the `Nat`
truncation here does).  `write_n_bytes` first checks `can_read`, then
opens the output file — creating it, and failing if its parent directory
is missing — then runs the read loop; the `with` block closes the output
file even on error, leaving its partial content on disk, which is why a
failing entry still appends `(name, bytes)` to the written list. -/
def decodeLoop (chunks : List (List Nat)) (dirs : List String) (total : Nat)
    (d : Dechunker) (ps : List (String × Nat)) (acc : List (String × List Nat)) :
    List (String × List Nat) × Dechunker × Option DecErr :=
  match ps with
  | [] => (acc, d, none)
  | (name, off) :: rest =>
    let len := endsOf total rest - off
    if d.can_read = false then (acc, d, some .sessionClosed)
    else if parentOk dirs name then
      match writeLoop chunks d len [] with
      | (d2, bytes, some e) => (acc ++ [(name, bytes)], d2, some e)
      | (d2, bytes, none) => decodeLoop chunks dirs total d2 rest (acc ++ [(name, bytes)])
    else (acc, d, some .outFileNotFound)

/-- Observable outcome of one `decode` call (lines 207-272): `raised` is
an exception that escaped `decode` (corrupt header, line 236, or a missing
`chunk-0`, line 243 — both sit outside the inner `try`); `errored` the
boolean the function returns when it returns normally; `written` the
output files now existing (with their content, partial for a file whose
write failed midway); `chunksOpened` how many chunk files were opened
during the session; `chunkHandleOpen` whether the dechunker's current
chunk file handle is still open when control returns — the `finally`
block (lines 264-272) never calls `dechunker.close`. -/
structure DecodeOutcome where
  raised : Option DecErr
  errored : Bool
  written : List (String × List Nat)
  chunksOpened : Nat
  chunkHandleOpen : Bool
deriving DecidableEq, Repr

/-- `decode` (lines 207-272) at the byte level: parse the header (failing
before any chunk file is opened), stable-sort the positions by offset,
open `chunk-0` via the `_Dechunker` constructor, then run the extraction
loop; every exception inside the loop is caught (line 259) and turned
into the returned error flag, and no cleanup of the dechunker happens in
`finally`. -/
def decode (chunks : List (List Nat)) (dirs : List String) (raw : RawHeader) :
    DecodeOutcome :=
  match parseHeader raw with
  | .error e =>
    { raised := some e, errored := false, written := [],
      chunksOpened := 0, chunkHandleOpen := false }
  | .ok (mb, ps, total) =>
    let sorted := sortPositions ps
    match Dechunker.init chunks (mb * 1024 * 1024) with
    | none =>
      { raised := some .chunkMissing, errored := false, written := [],
        chunksOpened := 0, chunkHandleOpen := false }
    | some d =>
      match decodeLoop chunks dirs total d sorted [] with
      | (files, d2, err) =>
        { raised := none, errored := err.isSome, written := files,
          chunksOpened := d2.chunk_index + 1, chunkHandleOpen := d2.chunk_open }

/-- The `RawHeader` a successfully written header file parses back to
(JSON round trip of `write_header_file`, lines 76-81). -/
def rawOfHeader (h : Header) : RawHeader :=
  { bytes_per_chunk := some h.bytes_per_chunk,
    positions := some h.positions,
    total_bytes := some h.total_bytes }

/-- The logical offsets `read_from_path` records: each file's starting
position in the concatenation of all file contents, beginning at
`start`. -/
def positionsOf (start : Nat) : List (String × List Nat) → List (String × Nat)
  | [] => []
  | (name, data) :: rest => (name, start) :: positionsOf (start + data.length) rest

/-- The logical byte stream a chunker has received so far: the closed
chunk files followed by the open one. -/
def Chunker.stream (c : Chunker) : List Nat :=
  c.closed_chunks.flatten ++ c.current_chunk

/-! ## List helpers -/

theorem take_min_length {α : Type} (l : List α) (n : Nat) :
    l.take (min n l.length) = l.take n := by
  rcases Nat.le_total n l.length with h | h
  · rw [Nat.min_eq_left h]
  · rw [Nat.min_eq_right h, List.take_length, List.take_of_length_le h]

theorem take_len_take {α : Type} (l : List α) (n : Nat) :
    l.take ((l.take n).length) = l.take n := by
  rw [List.length_take]
  exact take_min_length l n

/-- A bounded read followed by the rest of the source is the whole
source. -/
theorem read_append_drop {α : Type} (l : List α) (n : Nat) :
    l.take n ++ l.drop ((l.take n).length) = l := by
  have h := List.take_append_drop ((l.take n).length) l
  rwa [take_len_take] at h

/-! ## Encoder invariant and `readLoop` -/

/-- The state invariant of a `_Chunker` between `read_from_path` calls
(given a positive capacity): the byte counter of the open chunk matches
its content, the open chunk has free space (the source switches away from
a chunk the moment it fills), every closed chunk is exactly full, the
chunk index counts the closed chunks, the chunk names are
`chunk-0 … chunk-<index>`, and `byte_index` accounts for every byte
streamed in. -/
structure ChunkerInv (c : Chunker) : Prop where
  tcb : c.this_chunk_bytes = c.current_chunk.length
  room : c.this_chunk_bytes < c.bytes_per_chunk
  full : ∀ ch ∈ c.closed_chunks, ch.length = c.bytes_per_chunk
  idx : c.chunk_index = c.closed_chunks.length
  names : c.chunk_names =
    (List.range (c.closed_chunks.length + 1)).map (fun i => "chunk-" ++ toString i)
  total : c.byte_index = c.closed_chunks.length * c.bytes_per_chunk + c.current_chunk.length

theorem names_snoc (n : Nat) :
    (List.range (n + 1)).map (fun i => "chunk-" ++ toString i) ++ ["chunk-" ++ toString (n + 1)] =
    (List.range (n + 1 + 1)).map (fun i => "chunk-" ++ toString i) := by
  conv_rhs => rw [List.range_succ]
  simp

theorem chunkerInv_init (bpc : Nat) (hb : 1 ≤ bpc) : ChunkerInv (Chunker.init bpc) := by
  refine ⟨rfl, hb, ?_, rfl, ?_, by simp [Chunker.init]⟩
  · intro ch hch
    simp [Chunker.init] at hch
  · show ["chunk-0"] = (List.range (0 + 1)).map (fun i => "chunk-" ++ toString i)
    simp [List.range_succ]
    rfl

/-- The state `readLoop` recurses with after a non-empty read: counters
bumped by the read's size, the read appended to the open chunk, and a
switch to a fresh chunk when that filled the current one exactly. -/
def readStep (c : Chunker) (data : List Nat) : Chunker :=
  if c.bytes_per_chunk - (c.this_chunk_bytes + (sourceRead c data).length) = 0 then
    switchToNextChunk
      { c with
        this_chunk_bytes := c.this_chunk_bytes + (sourceRead c data).length,
        byte_index := c.byte_index + (sourceRead c data).length,
        current_chunk := c.current_chunk ++ sourceRead c data }
  else
    { c with
      this_chunk_bytes := c.this_chunk_bytes + (sourceRead c data).length,
      byte_index := c.byte_index + (sourceRead c data).length,
      current_chunk := c.current_chunk ++ sourceRead c data }

/-- One unfolding of the `readLoop` recursion. -/
theorem readLoop_eq (c : Chunker) (data : List Nat) :
    readLoop c data =
      if (sourceRead c data).length = 0 then c
      else readLoop (readStep c data) (data.drop (sourceRead c data).length) := by
  rw [readLoop]
  rfl

/-- Effect of the read loop on a chunker satisfying the invariant: all of
`data` is appended to the logical stream and counted, the invariant is
maintained, and the positions, session flag and capacity are untouched. -/
theorem readLoop_spec (c : Chunker) (data : List Nat) (hInv : ChunkerInv c) :
    ChunkerInv (readLoop c data) ∧
    (readLoop c data).stream = c.stream ++ data ∧
    (readLoop c data).byte_index = c.byte_index + data.length ∧
    (readLoop c data).file_positions = c.file_positions ∧
    (readLoop c data).can_write = c.can_write ∧
    (readLoop c data).bytes_per_chunk = c.bytes_per_chunk := by
  have main : ∀ (N : Nat) (data : List Nat), data.length ≤ N → ∀ c : Chunker, ChunkerInv c →
      ChunkerInv (readLoop c data) ∧
      (readLoop c data).stream = c.stream ++ data ∧
      (readLoop c data).byte_index = c.byte_index + data.length ∧
      (readLoop c data).file_positions = c.file_positions ∧
      (readLoop c data).can_write = c.can_write ∧
      (readLoop c data).bytes_per_chunk = c.bytes_per_chunk := by
    intro N
    induction N with
    | zero =>
      intro data hd c hc
      have hdata : data = [] := List.eq_nil_of_length_eq_zero (Nat.le_zero.mp hd)
      subst hdata
      rw [readLoop_eq]
      simp [sourceRead]
      exact hc
    | succ N ihN =>
      intro data hd c hc
      by_cases h0 : (sourceRead c data).length = 0
      · have hdata : data = [] := by
          have hroom := hc.room
          simp only [sourceRead, List.length_take] at h0
          have : data.length = 0 := by omega
          exact List.eq_nil_of_length_eq_zero this
        subst hdata
        rw [readLoop_eq]
        simp [sourceRead]
        exact hc
      · have hble : (sourceRead c data).length ≤ c.bytes_per_chunk - c.this_chunk_bytes := by
          simp only [sourceRead, List.length_take]
          exact min_le_left _ _
        have hdlen : (data.drop (sourceRead c data).length).length ≤ N := by
          have h1 : (sourceRead c data).length ≤ data.length := by
            simp only [sourceRead, List.length_take]
            exact min_le_right _ _
          simp only [List.length_drop]
          omega
        have hstep : ChunkerInv (readStep c data) ∧
            (readStep c data).stream = c.stream ++ sourceRead c data ∧
            (readStep c data).byte_index = c.byte_index + (sourceRead c data).length ∧
            (readStep c data).file_positions = c.file_positions ∧
            (readStep c data).can_write = c.can_write ∧
            (readStep c data).bytes_per_chunk = c.bytes_per_chunk := by
          obtain ⟨htcb, hroom, hfull, hidx, hnames, htotal⟩ := hc
          by_cases hfill : c.bytes_per_chunk - (c.this_chunk_bytes + (sourceRead c data).length) = 0
          · have hexact : c.this_chunk_bytes + (sourceRead c data).length = c.bytes_per_chunk := by
              omega
            have hsw : readStep c data =
                { bytes_per_chunk := c.bytes_per_chunk,
                  chunk_index := c.chunk_index + 1,
                  byte_index := c.byte_index + (sourceRead c data).length,
                  file_positions := c.file_positions,
                  can_write := c.can_write,
                  closed_chunks := c.closed_chunks ++ [c.current_chunk ++ sourceRead c data],
                  chunk_names := c.chunk_names ++ ["chunk-" ++ toString (c.chunk_index + 1)],
                  this_chunk_bytes := 0,
                  current_chunk := [] } := by
              unfold readStep
              rw [if_pos hfill]
              rfl
            rw [hsw]
            refine ⟨⟨rfl, by simp; omega, ?_, by simp [hidx], ?_, ?_⟩, ?_, rfl, rfl, rfl, rfl⟩
            · intro ch hch
              simp only [List.mem_append, List.mem_singleton] at hch
              rcases hch with hch | hch
              · exact hfull ch hch
              · subst hch
                simp only [List.length_append]
                omega
            · simp only [hnames, hidx, List.length_append, List.length_cons, List.length_nil]
              exact names_snoc _
            · show c.byte_index + (sourceRead c data).length =
                (c.closed_chunks ++ [c.current_chunk ++ sourceRead c data]).length *
                  c.bytes_per_chunk + ([] : List Nat).length
              simp only [List.length_append, List.length_singleton, List.length_nil,
                Nat.add_zero]
              rw [Nat.succ_mul]
              omega
            · simp [Chunker.stream]
          · have hsw : readStep c data =
                { c with
                  this_chunk_bytes := c.this_chunk_bytes + (sourceRead c data).length,
                  byte_index := c.byte_index + (sourceRead c data).length,
                  current_chunk := c.current_chunk ++ sourceRead c data } := by
              unfold readStep
              rw [if_neg hfill]
            rw [hsw]
            refine ⟨⟨by simp [htcb], by simpa using Nat.lt_of_sub_ne_zero hfill, ?_, hidx,
              hnames, ?_⟩, ?_, rfl, rfl, rfl, rfl⟩
            · intro ch hch
              exact hfull ch hch
            · simp only [List.length_append]
              omega
            · simp [Chunker.stream]
        obtain ⟨hstepInv, hstepStream, hstepByte, hstepPos, hstepCw, hstepBpc⟩ := hstep
        obtain ⟨rInv, rStream, rByte, rPos, rCw, rBpc⟩ :=
          ihN (data.drop (sourceRead c data).length) hdlen (readStep c data) hstepInv
        rw [readLoop_eq, if_neg h0]
        refine ⟨rInv, ?_, ?_, ?_, ?_, ?_⟩
        · rw [rStream, hstepStream, List.append_assoc]
          congr 1
          exact read_append_drop data _
        · rw [rByte, hstepByte, List.length_drop]
          have h1 : (sourceRead c data).length ≤ data.length := by
            simp only [sourceRead, List.length_take]
            exact min_le_right _ _
          omega
        · rw [rPos, hstepPos]
        · rw [rCw, hstepCw]
        · rw [rBpc, hstepBpc]
  exact main data.length data (Nat.le_refl _) c hInv


/-! ## Encoder orchestration -/

/-- Running the encode loop from a valid chunker with no name collisions
succeeds: it records positions at the running logical offsets, appends all
contents to the stream, and maintains the invariant. -/
theorem encodeLoop_ok (files : List (String × List Nat)) :
    ∀ c : Chunker, ChunkerInv c → c.can_write = true →
    ((c.file_positions.map Prod.fst) ++ files.map Prod.fst).Nodup →
    (encodeLoop c files).2 = none ∧
    ChunkerInv (encodeLoop c files).1 ∧
    (encodeLoop c files).1.can_write = true ∧
    (encodeLoop c files).1.bytes_per_chunk = c.bytes_per_chunk ∧
    (encodeLoop c files).1.file_positions =
      c.file_positions ++ positionsOf c.byte_index files ∧
    (encodeLoop c files).1.stream = c.stream ++ (files.map Prod.snd).flatten ∧
    (encodeLoop c files).1.byte_index =
      c.byte_index + (files.map Prod.snd).flatten.length := by
  induction files with
  | nil =>
    intro c hInv hcw _
    simp [encodeLoop, positionsOf]
    exact ⟨hInv, hcw⟩
  | cons hd rest ih =>
    intro c hInv hcw hnodup
    obtain ⟨name, data⟩ := hd
    have hnotin : name ∉ c.file_positions.map Prod.fst := by
      have hsplit := List.nodup_append.mp hnodup
      intro hmem
      exact hsplit.2.2 hmem (by simp)
    have hrfp : c.read_from_path name data = .ok (readLoop
        { c with file_positions := c.file_positions ++ [(name, c.byte_index)] } data) := by
      unfold Chunker.read_from_path
      rw [if_neg (by simp [hcw]), if_neg (by simpa using hnotin)]
    have hmidInv : ChunkerInv { c with
        file_positions := c.file_positions ++ [(name, c.byte_index)] } := by
      obtain ⟨h1, h2, h3, h4, h5, h6⟩ := hInv
      exact ⟨h1, h2, h3, h4, h5, h6⟩
    obtain ⟨rInv, rStream, rByte, rPos, rCw, rBpc⟩ :=
      readLoop_spec { c with file_positions := c.file_positions ++ [(name, c.byte_index)] }
        data hmidInv
    set c2 := readLoop { c with
      file_positions := c.file_positions ++ [(name, c.byte_index)] } data with hc2
    have hc2pos : c2.file_positions = c.file_positions ++ [(name, c.byte_index)] := rPos
    have hc2nodup : ((c2.file_positions.map Prod.fst) ++ rest.map Prod.fst).Nodup := by
      rw [hc2pos]
      simp only [List.map_append, List.map_cons, List.map_nil, List.map_cons] at hnodup ⊢
      simpa [List.append_assoc] using hnodup
    have hloop : encodeLoop c ((name, data) :: rest) = encodeLoop c2 rest := by
      show (match c.read_from_path name data with
        | .error e => (c, some e)
        | .ok c3 => encodeLoop c3 rest) = encodeLoop c2 rest
      rw [hrfp]
    obtain ⟨e1, e2, e3, e4, e5, e6, e7⟩ := ih c2 rInv (by rw [rCw]; exact hcw) hc2nodup
    rw [hloop]
    refine ⟨e1, e2, e3, ?_, ?_, ?_, ?_⟩
    · rw [e4, rBpc]
    · rw [e5, hc2pos, rByte]
      simp only [positionsOf, List.append_assoc, List.singleton_append]
    · rw [e6, rStream]
      simp only [Chunker.stream, List.map_cons, List.flatten_cons, List.append_assoc]
    · rw [e7, rByte]
      simp only [List.map_cons, List.flatten_cons, List.length_append]
      omega

/-- Summary of a successful encode session with positive capacity and
distinct names: no error, header written, positions are the running
offsets, and the chunk files on disk partition the logical stream with
every non-final chunk exactly full. -/
theorem encode_spec (files : List (String × List Nat)) (bpc : Nat)
    (hb : 1 ≤ bpc) (hn : (files.map Prod.fst).Nodup) :
    (encode files bpc).errored = false ∧
    (encode files bpc).error = none ∧
    (encode files bpc).positions = positionsOf 0 files ∧
    (encode files bpc).total_bytes = (files.map Prod.snd).flatten.length ∧
    (encode files bpc).header =
      some ⟨bpc, positionsOf 0 files, (files.map Prod.snd).flatten.length⟩ ∧
    ∃ closed current,
      (encode files bpc).chunks = closed ++ [current] ∧
      (∀ ch ∈ closed, ch.length = bpc) ∧
      closed.flatten ++ current = (files.map Prod.snd).flatten ∧
      current.length < bpc ∧
      current.length = (files.map Prod.snd).flatten.length % bpc ∧
      closed.length = (files.map Prod.snd).flatten.length / bpc ∧
      (encode files bpc).chunk_names =
        (List.range (closed.length + 1)).map (fun i => "chunk-" ++ toString i) := by
  have hinit := chunkerInv_init bpc hb
  have hnodup : (((Chunker.init bpc).file_positions.map Prod.fst) ++
      files.map Prod.fst).Nodup := by
    simpa [Chunker.init] using hn
  obtain ⟨e1, e2, e3, e4, e5, e6, e7⟩ :=
    encodeLoop_ok files (Chunker.init bpc) hinit rfl hnodup
  set c := (encodeLoop (Chunker.init bpc) files).1 with hc
  obtain ⟨i1, i2, i3, i4, i5, i6⟩ := e2
  have hbpc : c.bytes_per_chunk = bpc := by
    rw [e4]
    rfl
  have hstream : c.closed_chunks.flatten ++ c.current_chunk =
      (files.map Prod.snd).flatten := by
    have := e6
    simpa [Chunker.stream, Chunker.init] using this
  have hflatlen : (files.map Prod.snd).flatten.length =
      c.closed_chunks.length * bpc + c.current_chunk.length := by
    rw [← hstream]
    simp only [List.length_append]
    congr 1
    · have : ∀ L : List (List Nat), (∀ ch ∈ L, ch.length = bpc) →
          L.flatten.length = L.length * bpc := by
        intro L
        induction L with
        | nil => simp
        | cons hd tl ihl =>
          intro hfull
          simp only [List.flatten_cons, List.length_append, List.length_cons]
          rw [hfull hd (by simp), ihl (fun ch hch => hfull ch (by simp [hch]))]
          ring
      exact this c.closed_chunks (fun ch hch => by rw [i3 ch hch, hbpc])
  have hcur : c.current_chunk.length < bpc := by
    have := i2
    rw [i1] at this
    omega
  have hmod : c.current_chunk.length = (files.map Prod.snd).flatten.length % bpc := by
    rw [hflatlen, Nat.mul_comm, Nat.mul_add_mod]
    exact (Nat.mod_eq_of_lt hcur).symm
  have hdiv : c.closed_chunks.length = (files.map Prod.snd).flatten.length / bpc := by
    rw [hflatlen, Nat.mul_comm, Nat.mul_add_div (by omega), Nat.div_eq_of_lt hcur]
    omega
  have hbytes : c.byte_index = (files.map Prod.snd).flatten.length := by
    have := e7
    simpa [Chunker.init] using this
  have hpos : c.file_positions = positionsOf 0 files := by
    have := e5
    simpa [Chunker.init] using this
  refine ⟨by simp [encode, ← hc, e1], by simp [encode, ← hc, e1],
    by simp [encode, ← hc, Chunker.close, hpos],
    by simp [encode, ← hc, Chunker.close, hbytes],
    by simp [encode, ← hc, e1, Chunker.close, hpos, hbytes],
    c.closed_chunks, c.current_chunk,
    by simp [encode, ← hc, Chunker.close],
    fun ch hch => by rw [i3 ch hch, hbpc],
    hstream, hcur, hmod, hdiv, ?_⟩
  show (Chunker.close c).chunk_names = _
  rw [Chunker.close]
  exact i5

/-- `readLoop` never touches the recorded positions or the session flag
(no validity assumption needed). -/
theorem readLoop_fields (c : Chunker) (data : List Nat) :
    (readLoop c data).file_positions = c.file_positions ∧
    (readLoop c data).can_write = c.can_write := by
  have main : ∀ (N : Nat) (data : List Nat), data.length ≤ N → ∀ c : Chunker,
      (readLoop c data).file_positions = c.file_positions ∧
      (readLoop c data).can_write = c.can_write := by
    intro N
    induction N with
    | zero =>
      intro data hd c
      have hdata : data = [] := List.eq_nil_of_length_eq_zero (Nat.le_zero.mp hd)
      subst hdata
      rw [readLoop_eq]
      simp [sourceRead]
    | succ N ihN =>
      intro data hd c
      by_cases h0 : (sourceRead c data).length = 0
      · rw [readLoop_eq, if_pos h0]
        exact ⟨rfl, rfl⟩
      · have hdlen : (data.drop (sourceRead c data).length).length ≤ N := by
          have h1 : (sourceRead c data).length ≤ data.length := by
            simp only [sourceRead, List.length_take]
            exact min_le_right _ _
          simp only [List.length_drop]
          omega
        have hfields : (readStep c data).file_positions = c.file_positions ∧
            (readStep c data).can_write = c.can_write := by
          unfold readStep
          split
          · exact ⟨rfl, rfl⟩
          · exact ⟨rfl, rfl⟩
        obtain ⟨f1, f2⟩ := hfields
        obtain ⟨g1, g2⟩ := ihN (data.drop (sourceRead c data).length) hdlen (readStep c data)
        rw [readLoop_eq, if_neg h0]
        exact ⟨by rw [g1, f1], by rw [g2, f2]⟩
  exact main data.length data (Nat.le_refl _) c

/-- If the names fed to the encode loop collide — with each other or with
the names already recorded — the loop stops at the first collision with
the `KeyError` of line 51. -/
theorem encodeLoop_dup : ∀ (files : List (String × List Nat)) (c : Chunker),
    c.can_write = true →
    (c.file_positions.map Prod.fst).Nodup →
    ¬ ((c.file_positions.map Prod.fst) ++ files.map Prod.fst).Nodup →
    (encodeLoop c files).2 = some .duplicateName := by
  intro files
  induction files with
  | nil =>
    intro c _ hpos hdup
    exact absurd (by simpa using hpos) hdup
  | cons hd rest ih =>
    intro c hcw hpos hdup
    obtain ⟨name, data⟩ := hd
    by_cases hmem : name ∈ c.file_positions.map Prod.fst
    · have hrfp : c.read_from_path name data = .error .duplicateName := by
        unfold Chunker.read_from_path
        rw [if_neg (by simp [hcw]), if_pos (by simpa using hmem)]
      show (match c.read_from_path name data with
        | .error e => (c, some e)
        | .ok c3 => encodeLoop c3 rest).2 = some EncErr.duplicateName
      rw [hrfp]
    · have hrfp : c.read_from_path name data = .ok (readLoop
          { c with file_positions := c.file_positions ++ [(name, c.byte_index)] } data) := by
        unfold Chunker.read_from_path
        rw [if_neg (by simp [hcw]), if_neg (by simpa using hmem)]
      set c2 := readLoop
        { c with file_positions := c.file_positions ++ [(name, c.byte_index)] } data with hc2
      obtain ⟨f1, f2⟩ := readLoop_fields
        { c with file_positions := c.file_positions ++ [(name, c.byte_index)] } data
      have hloop : encodeLoop c ((name, data) :: rest) = encodeLoop c2 rest := by
        show (match c.read_from_path name data with
          | .error e => (c, some e)
          | .ok c3 => encodeLoop c3 rest) = encodeLoop c2 rest
        rw [hrfp]
      rw [hloop]
      refine ih c2 (by rw [f2]; exact hcw) ?_ ?_
      · rw [f1]
        simp only [List.map_append, List.map_cons, List.map_nil]
        rw [List.nodup_append]
        refine ⟨hpos, by simp, ?_⟩
        intro a ha hb
        simp only [List.mem_singleton] at hb
        subst hb
        exact hmem ha
      · intro hcon
        apply hdup
        rw [f1] at hcon
        simp only [List.map_append, List.map_cons, List.map_nil] at hcon ⊢
        simpa [List.append_assoc] using hcon

/-! ## Claim C4 — duplicate names -/

/-- C4: in every encode session in which two enumerated entries carry the
same name, the loop fails at the duplicate with the duplicate-name error
(`KeyError`, line 51) and, since `errored` is set, `write_header_file` is
never called (lines 135-136): no header file is written. -/
theorem claim_C4_duplicate_name (files : List (String × List Nat)) (bpc : Nat)
    (hdup : ¬ (files.map Prod.fst).Nodup) :
    (encode files bpc).errored = true ∧
    (encode files bpc).error = some EncErr.duplicateName ∧
    (encode files bpc).header = none := by
  have h := encodeLoop_dup files (Chunker.init bpc) rfl (by simp [Chunker.init])
    (by simpa [Chunker.init] using hdup)
  refine ⟨?_, ?_, ?_⟩ <;> simp [encode, h]

/-- Witness for C4: two entries both named `a`, capacity 1 byte. -/
theorem claim_C4_witness :
    (encode [("a", [1]), ("a", [2])] 1).errored = true ∧
    (encode [("a", [1]), ("a", [2])] 1).error = some EncErr.duplicateName ∧
    (encode [("a", [1]), ("a", [2])] 1).header = none :=
  claim_C4_duplicate_name [("a", [1]), ("a", [2])] 1 (by simp)

/-! ## Claim C2 — behaviour at an exact chunk boundary -/

/-- C2 counterexample: the claim says that when a file's bytes exactly
fill the current chunk and no further bytes are pending, the writer does
not open the next chunk file.  In the code the switch happens inside the
read loop the moment the chunk fills (lines 62-65), before the final empty
read: after consuming a single 2-byte file with capacity 2 and nothing
else pending, `chunk-1` has already been created and is empty
(`chunk_index = 1`, two chunk files on disk). -/
theorem claim_C2_counterexample :
    (Chunker.init 2).read_from_path "a" [7, 7] =
      .ok { bytes_per_chunk := 2, chunk_index := 1, byte_index := 2,
            file_positions := [("a", 0)], can_write := true,
            closed_chunks := [[7, 7]], chunk_names := ["chunk-0", "chunk-1"],
            this_chunk_bytes := 0, current_chunk := [] } := by
  simp [Chunker.read_from_path, readLoop, sourceRead, switchToNextChunk, Chunker.init]
  rfl

/-- C2 amended: when a file's bytes exactly fill the current chunk, the
writer closes it and immediately opens the next chunk file even when no
further bytes are pending, leaving a freshly created empty chunk. -/
theorem claim_C2_eager_switch (c : Chunker) (name : String) (data : List Nat)
    (hcw : c.can_write = true)
    (hnew : name ∉ c.file_positions.map Prod.fst)
    (hfill : data.length = c.bytes_per_chunk - c.this_chunk_bytes)
    (hpos : 0 < data.length) :
    ∃ c2, c.read_from_path name data = .ok c2 ∧
      c2.chunk_index = c.chunk_index + 1 ∧
      c2.this_chunk_bytes = 0 ∧
      c2.current_chunk = [] ∧
      c2.chunk_names = c.chunk_names ++ ["chunk-" ++ toString (c.chunk_index + 1)] := by
  have hrfp : c.read_from_path name data = .ok (readLoop
      { c with file_positions := c.file_positions ++ [(name, c.byte_index)] } data) := by
    unfold Chunker.read_from_path
    rw [if_neg (by simp [hcw]), if_neg (by simpa using hnew)]
  set mid : Chunker :=
    { c with file_positions := c.file_positions ++ [(name, c.byte_index)] } with hmid
  have hsr : sourceRead mid data = data := by
    show data.take (c.bytes_per_chunk - c.this_chunk_bytes) = data
    rw [← hfill]
    exact List.take_length data
  have h0 : ¬ (sourceRead mid data).length = 0 := by
    rw [hsr]
    omega
  have hstep : readStep mid data = switchToNextChunk
      { mid with
        this_chunk_bytes := mid.this_chunk_bytes + (sourceRead mid data).length,
        byte_index := mid.byte_index + (sourceRead mid data).length,
        current_chunk := mid.current_chunk ++ sourceRead mid data } := by
    unfold readStep
    rw [if_pos]
    show c.bytes_per_chunk - (c.this_chunk_bytes + (sourceRead mid data).length) = 0
    rw [hsr, hfill]
    omega
  have hdrop : data.drop (sourceRead mid data).length = [] := by
    rw [hsr]
    exact List.drop_length data
  have hdone : readLoop mid data = readStep mid data := by
    rw [readLoop_eq, if_neg h0, hdrop, readLoop_eq, if_pos (by simp [sourceRead])]
  refine ⟨readLoop mid data, hrfp, ?_, ?_, ?_, ?_⟩ <;>
    rw [hdone, hstep] <;> simp [switchToNextChunk]

/-- Witness for the amended C2: capacity 3, a single 3-byte file. -/
theorem claim_C2_witness :
    ∃ c2, (Chunker.init 3).read_from_path "a" [1, 2, 3] = .ok c2 ∧
      c2.chunk_index = (Chunker.init 3).chunk_index + 1 ∧
      c2.this_chunk_bytes = 0 ∧
      c2.current_chunk = [] ∧
      c2.chunk_names = (Chunker.init 3).chunk_names ++
        ["chunk-" ++ toString ((Chunker.init 3).chunk_index + 1)] :=
  claim_C2_eager_switch (Chunker.init 3) "a" [1, 2, 3] rfl (by simp [Chunker.init])
    (by simp [Chunker.init]) (by simp)

/-! ## Claim C3 — chunk sizes and names -/

/-- C3 counterexample: the claim says the final chunk file is never zero
bytes when the capacity is positive.  Encoding a single file whose size is
an exact multiple of the capacity succeeds but leaves a trailing empty
chunk file: here capacity 2 and one 2-byte file produce `chunk-0 = [5,5]`
and an empty `chunk-1`. -/
theorem claim_C3_counterexample :
    (encode [("a", [5, 5])] 2).errored = false ∧
    (encode [("a", [5, 5])] 2).chunks = [[5, 5], []] ∧
    (encode [("a", [5, 5])] 2).chunk_names = ["chunk-0", "chunk-1"] := by
  refine ⟨rfl, ?_, ?_⟩
  · simp [encode, encodeLoop, Chunker.read_from_path, readLoop, sourceRead,
      switchToNextChunk, Chunker.init, Chunker.close]
  · simp [encode, encodeLoop, Chunker.read_from_path, readLoop, sourceRead,
      switchToNextChunk, Chunker.init, Chunker.close]
    rfl

/-- C3 amended: after a successful encode (positive capacity, distinct
names) every chunk file except the final one contains exactly
`bytes_per_chunk` bytes, the final one is strictly shorter, the chunk
files are named `chunk-0, chunk-1, …` with a zero-based sequential index —
but the final chunk is empty exactly when the total length is a multiple
of the capacity (including a total of zero), rather than never. -/
theorem claim_C3_chunk_sizes (files : List (String × List Nat)) (bpc : Nat)
    (hb : 1 ≤ bpc) (hn : (files.map Prod.fst).Nodup) :
    (encode files bpc).errored = false ∧
    ∃ closed current,
      (encode files bpc).chunks = closed ++ [current] ∧
      (∀ ch ∈ closed, ch.length = bpc) ∧
      current.length < bpc ∧
      (current.length = 0 ↔ (files.map Prod.snd).flatten.length % bpc = 0) ∧
      (encode files bpc).chunk_names =
        (List.range (encode files bpc).chunks.length).map
          (fun i => "chunk-" ++ toString i) := by
  obtain ⟨h1, _, _, _, _, closed, current, hchunks, hfull, _, hcur, hmod, _, hnames⟩ :=
    encode_spec files bpc hb hn
  refine ⟨h1, closed, current, hchunks, hfull, hcur, ?_, ?_⟩
  · rw [hmod]
  · rw [hnames, hchunks]
    simp

/-- Witness for the amended C3: capacity 2, one 3-byte file: `chunk-0`
holds two bytes, the final chunk one byte. -/
theorem claim_C3_witness :
    (encode [("a", [1, 2, 3])] 2).errored = false ∧
    ∃ closed current,
      (encode [("a", [1, 2, 3])] 2).chunks = closed ++ [current] ∧
      (∀ ch ∈ closed, ch.length = 2) ∧
      current.length < 2 ∧
      (current.length = 0 ↔
        (([("a", [1, 2, 3])].map Prod.snd).flatten.length) % 2 = 0) ∧
      (encode [("a", [1, 2, 3])] 2).chunk_names =
        (List.range (encode [("a", [1, 2, 3])] 2).chunks.length).map
          (fun i => "chunk-" ++ toString i) :=
  claim_C3_chunk_sizes [("a", [1, 2, 3])] 2 (by omega) (by simp)

/-! ## Claim C7 — corrupt header -/

/-- C7: a header record missing `total_bytes` makes `decode` fail with the
header-corrupt error (`ValueError`, line 236), and the failure happens
before any chunk file is opened (`_Dechunker` is only constructed on
line 243, after the header was read successfully). -/
theorem claim_C7_header_corrupt (chunks : List (List Nat)) (dirs : List String)
    (raw : RawHeader) (h : raw.total_bytes = none) :
    decode chunks dirs raw =
      { raised := some DecErr.headerCorrupt, errored := false, written := [],
        chunksOpened := 0, chunkHandleOpen := false } := by
  have hp : parseHeader raw = .error .headerCorrupt := by
    unfold parseHeader
    split
    · rfl
    · split
      · rfl
      · rw [h]
  unfold decode
  rw [hp]

/-- Witness for C7: a header carrying `bytes_per_chunk` and `positions`
but no `total_bytes`, over a one-chunk directory. -/
theorem claim_C7_witness :
    decode [[9]] []
      { bytes_per_chunk := some 1, positions := some [("a", 0)],
        total_bytes := none } =
      { raised := some DecErr.headerCorrupt, errored := false, written := [],
        chunksOpened := 0, chunkHandleOpen := false } :=
  claim_C7_header_corrupt [[9]] []
    { bytes_per_chunk := some 1, positions := some [("a", 0)], total_bytes := none }
    rfl

/-! ## Claim C8 — file handles on exit -/

/-- C8: the claim says every file handle a decode session opened is closed
on every exit path before control returns.  `decode` returns — here
successfully, having reconstructed the single file — with the dechunker's
current chunk file handle still open: the `finally` block (lines 264-272)
never calls `_Dechunker.close` (defined on lines 202-205 but invoked
nowhere). -/
theorem claim_C8_handle_left_open :
    decode [[9]] []
      (rawOfHeader
        { bytes_per_chunk := 1024 * 1024, positions := [("a", 0)], total_bytes := 1 }) =
      { raised := none, errored := false, written := [("a", [9])],
        chunksOpened := 1, chunkHandleOpen := true } := by
  simp [decode, parseHeader, rawOfHeader, sortPositions, insertByOffset,
    Dechunker.init, decodeLoop, endsOf, writeLoop, chunkRead, parentOk, parentDirOf]

/-! ## Claim C5 — parent directories are not created -/

/-- C5: the claim says decode creates all needed parent directories under
the output directory before writing each file.  `decode` contains no
directory creation at all (lines 245-257): with a fresh output directory,
decoding an entry whose relative path has a directory component fails when
`open(outpath, 'wb')` raises `FileNotFoundError`, the loop aborts with the
error flag set, and no file is written. -/
theorem claim_C5_no_parent_dirs :
    decode [[9]] []
      (rawOfHeader
        { bytes_per_chunk := 1024 * 1024, positions := [("d/f", 0)], total_bytes := 1 }) =
      { raised := none, errored := true, written := [],
        chunksOpened := 1, chunkHandleOpen := true } := by
  simp [decode, parseHeader, rawOfHeader, sortPositions, insertByOffset,
    Dechunker.init, decodeLoop, endsOf, writeLoop, chunkRead, parentOk, parentDirOf]

/-! ## Sorting the positions table -/

theorem insertByOffset_perm (x : String × Nat) (l : List (String × Nat)) :
    (insertByOffset x l).Perm (x :: l) := by
  induction l with
  | nil => exact List.Perm.refl _
  | cons y ys ih =>
    unfold insertByOffset
    split
    · exact List.Perm.refl _
    · exact (List.Perm.cons y ih).trans (List.Perm.swap x y ys)

theorem sortPositions_perm (l : List (String × Nat)) : (sortPositions l).Perm l := by
  have main : ∀ (l acc : List (String × Nat)),
      (List.foldl (fun a x => insertByOffset x a) acc l).Perm (acc ++ l) := by
    intro l
    induction l with
    | nil =>
      intro acc
      simp
    | cons x xs ih =>
      intro acc
      refine (ih (insertByOffset x acc)).trans ?_
      refine List.Perm.trans ?_ List.perm_middle.symm
      exact (insertByOffset_perm x acc).append_right xs
  have h := main l []
  simpa [sortPositions] using h

theorem insertByOffset_sorted (x : String × Nat) (l : List (String × Nat))
    (hl : l.Pairwise (fun a b => a.2 ≤ b.2)) :
    (insertByOffset x l).Pairwise (fun a b => a.2 ≤ b.2) := by
  induction l with
  | nil => simp [insertByOffset]
  | cons y ys ih =>
    unfold insertByOffset
    rw [List.pairwise_cons] at hl
    split
    · rename_i hlt
      rw [List.pairwise_cons]
      refine ⟨?_, List.pairwise_cons.mpr hl⟩
      intro b hb
      rcases List.mem_cons.mp hb with hb | hb
      · subst hb
        omega
      · have := hl.1 b hb
        omega
    · rename_i hge
      rw [List.pairwise_cons]
      refine ⟨?_, ih hl.2⟩
      intro b hb
      have hb2 := (insertByOffset_perm x ys).mem_iff.mp hb
      rcases List.mem_cons.mp hb2 with hb2 | hb2
      · subst hb2
        omega
      · exact hl.1 b hb2

theorem sortPositions_sorted (l : List (String × Nat)) :
    (sortPositions l).Pairwise (fun a b => a.2 ≤ b.2) := by
  have main : ∀ (l acc : List (String × Nat)),
      acc.Pairwise (fun a b => a.2 ≤ b.2) →
      (List.foldl (fun a x => insertByOffset x a) acc l).Pairwise
        (fun a b => a.2 ≤ b.2) := by
    intro l
    induction l with
    | nil =>
      intro acc h
      simpa using h
    | cons x xs ih =>
      intro acc h
      exact ih (insertByOffset x acc) (insertByOffset_sorted x acc h)
  exact main l [] (by simp)

/-- Python's `sorted` is stable, so the stored order decides ties; with
pairwise-distinct offsets the sorted table is determined by the underlying
mapping alone. -/
theorem sortPositions_perm_eq (p q : List (String × Nat)) (hperm : p.Perm q)
    (hdist : (p.map Prod.snd).Nodup) :
    sortPositions p = sortPositions q := by
  haveI : IsAntisymm (String × Nat) (fun a b => a.2 < b.2) := by
    constructor
    intro a b h1 h2
    omega
  have hpq : (sortPositions p).Perm (sortPositions q) :=
    ((sortPositions_perm p).trans hperm).trans (sortPositions_perm q).symm
  have hstrict : ∀ r : List (String × Nat), (r.map Prod.snd).Nodup →
      r.Pairwise (fun a b => a.2 ≤ b.2) →
      r.Pairwise (fun a b => a.2 < b.2) := by
    intro r hnod hsort
    have hne : r.Pairwise (fun a b => a.2 ≠ b.2) :=
      (List.pairwise_map.mp hnod)
    have := hsort.and hne
    exact this.imp (fun h => by omega)
  have hp : (sortPositions p).Pairwise (fun a b => a.2 < b.2) :=
    hstrict _ (((sortPositions_perm p).map Prod.snd).nodup_iff.mpr hdist)
      (sortPositions_sorted p)
  have hqdist : (q.map Prod.snd).Nodup :=
    ((hperm.map Prod.snd).nodup_iff).mp hdist
  have hq : (sortPositions q).Pairwise (fun a b => a.2 < b.2) :=
    hstrict _ (((sortPositions_perm q).map Prod.snd).nodup_iff.mpr hqdist)
      (sortPositions_sorted q)
  exact List.eq_of_perm_of_sorted hpq hp hq

/-! ## Claim C9 — storage order of the positions table -/

/-- `decode` on a fully present header, reduced to its extraction loop. -/
theorem decode_some (chunks : List (List Nat)) (dirs : List String)
    (b : Nat) (p : List (String × Nat)) (tb : Nat) :
    decode chunks dirs ⟨some b, some p, some tb⟩ =
      (match Dechunker.init chunks ((b / (1024 * 1024)) * 1024 * 1024) with
       | none =>
         { raised := some .chunkMissing, errored := false, written := [],
           chunksOpened := 0, chunkHandleOpen := false }
       | some d =>
         match decodeLoop chunks dirs tb d (sortPositions p) [] with
         | (files, d2, err) =>
           { raised := none, errored := err.isSome, written := files,
             chunksOpened := d2.chunk_index + 1, chunkHandleOpen := d2.chunk_open }) := rfl

/-- C9 counterexample: the claim says a header whose positions mapping is
stored out of offset order decodes to exactly the same files as the same
mapping stored in offset order.  With tied offsets (possible for
zero-length files) the stable sort of line 239 keeps the stored order, so
the storage order decides which tied file gets the bytes: the mapping
`{a ↦ 0, b ↦ 1, c ↦ 1}` stored out of order as `[b, a, c]` gives `b` zero
bytes and `c` the byte `8`, while the same mapping stored in offset order
as `[a, c, b]` gives `c` zero bytes and `b` the byte `8`. -/
theorem claim_C9_counterexample :
    (decode [[7, 8]] []
      { bytes_per_chunk := some 1, positions := some [("b", 1), ("a", 0), ("c", 1)],
        total_bytes := some 2 }).written = [("a", [7]), ("b", []), ("c", [8])] ∧
    (decode [[7, 8]] []
      { bytes_per_chunk := some 1, positions := some [("a", 0), ("c", 1), ("b", 1)],
        total_bytes := some 2 }).written = [("a", [7]), ("c", []), ("b", [8])] ∧
    (decode [[7, 8]] []
      { bytes_per_chunk := some 1, positions := some [("b", 1), ("a", 0), ("c", 1)],
        total_bytes := some 2 }).written.lookup "b" = some [] ∧
    (decode [[7, 8]] []
      { bytes_per_chunk := some 1, positions := some [("a", 0), ("c", 1), ("b", 1)],
        total_bytes := some 2 }).written.lookup "b" = some [8] := by
  refine ⟨?_, ?_, ?_, ?_⟩ <;>
    simp [decode, parseHeader, sortPositions, insertByOffset, Dechunker.init,
      decodeLoop, endsOf, writeLoop, chunkRead, parentOk, parentDirOf, List.lookup]

/-- C9 amended: for a header whose offsets are pairwise distinct, the
stored order of the positions mapping is irrelevant: any two storage
orders of the same mapping decode identically, because line 239 sorts the
entries by offset before lengths are computed. -/
theorem claim_C9_offset_order (chunks : List (List Nat)) (dirs : List String)
    (b tb : Nat) (p q : List (String × Nat))
    (hperm : p.Perm q) (hdist : (p.map Prod.snd).Nodup) :
    decode chunks dirs
        { bytes_per_chunk := some b, positions := some p, total_bytes := some tb } =
      decode chunks dirs
        { bytes_per_chunk := some b, positions := some q, total_bytes := some tb } := by
  rw [decode_some, decode_some, sortPositions_perm_eq p q hperm hdist]

/-- Witness for the amended C9: the mapping `{a ↦ 1, b ↦ 2}` stored as
`[b, a]` (out of offset order) and as `[a, b]`. -/
theorem claim_C9_witness :
    decode [[3, 4, 5]] []
        { bytes_per_chunk := some 1, positions := some [("b", 2), ("a", 1)],
          total_bytes := some 3 } =
      decode [[3, 4, 5]] []
        { bytes_per_chunk := some 1, positions := some [("a", 1), ("b", 2)],
          total_bytes := some 3 } :=
  claim_C9_offset_order [[3, 4, 5]] [] 1 3 [("b", 2), ("a", 1)] [("a", 1), ("b", 2)]
    (by decide) (by decide)

/-! ## Claim C10 — decode ignores the stored capacity -/

/-- One unfolding of the `writeLoop` recursion. -/
theorem writeLoop_eq (chunks : List (List Nat)) (d : Dechunker) (n : Nat)
    (acc : List Nat) :
    writeLoop chunks d n acc =
      if n = 0 then (d, acc, none)
      else
        if (chunkRead chunks d n).length = 0 then
          if d.chunk_index + 1 < chunks.length then
            writeLoop chunks { d with chunk_index := d.chunk_index + 1, pos := 0 } n acc
          else ({ d with chunk_open := false }, acc, some .chunkMissing)
        else
          writeLoop chunks { d with pos := d.pos + (chunkRead chunks d n).length }
            (n - (chunkRead chunks d n).length) (acc ++ chunkRead chunks d n) := by
  rw [writeLoop]

/-- The reader never consults `bytes_per_chunk` (stored on line 150 and
never read): the read loop's result is independent of it, the field being
merely carried along. -/
theorem writeLoop_bpc (chunks : List (List Nat)) :
    ∀ (n : Nat) (d : Dechunker) (acc : List Nat) (b : Nat),
    writeLoop chunks { d with bytes_per_chunk := b } n acc =
      (fun r : Dechunker × List Nat × Option DecErr =>
        ({ r.1 with bytes_per_chunk := b }, r.2.1, r.2.2))
        (writeLoop chunks d n acc) := by
  have main : ∀ (N n : Nat) (d : Dechunker), n + (chunks.length - d.chunk_index) ≤ N →
      ∀ (acc : List Nat) (b : Nat),
      writeLoop chunks { d with bytes_per_chunk := b } n acc =
        (fun r : Dechunker × List Nat × Option DecErr =>
          ({ r.1 with bytes_per_chunk := b }, r.2.1, r.2.2))
          (writeLoop chunks d n acc) := by
    intro N
    induction N with
    | zero =>
      intro n d hN acc b
      have hn : n = 0 := by omega
      subst hn
      rw [writeLoop_eq, if_pos rfl, writeLoop_eq chunks d, if_pos rfl]
    | succ N ihN =>
      intro n d hN acc b
      by_cases hn : n = 0
      · subst hn
        rw [writeLoop_eq, if_pos rfl, writeLoop_eq chunks d, if_pos rfl]
      · have hcr : chunkRead chunks { d with bytes_per_chunk := b } n =
            chunkRead chunks d n := rfl
        by_cases hb0 : (chunkRead chunks d n).length = 0
        · by_cases hnext : d.chunk_index + 1 < chunks.length
          · rw [writeLoop_eq, if_neg hn, hcr, if_pos hb0, if_pos hnext,
              writeLoop_eq chunks d, if_neg hn, if_pos hb0, if_pos hnext]
            have hm : n + (chunks.length - (d.chunk_index + 1)) ≤ N := by
              omega
            exact ihN n { d with chunk_index := d.chunk_index + 1, pos := 0 } hm acc b
          · rw [writeLoop_eq, if_neg hn, hcr, if_pos hb0, if_neg hnext,
              writeLoop_eq chunks d, if_neg hn, if_pos hb0, if_neg hnext]
        · rw [writeLoop_eq, if_neg hn, hcr, if_neg hb0,
            writeLoop_eq chunks d, if_neg hn, if_neg hb0]
          have hm : (n - (chunkRead chunks d n).length) +
              (chunks.length - d.chunk_index) ≤ N := by
            omega
          exact ihN (n - (chunkRead chunks d n).length)
            { d with pos := d.pos + (chunkRead chunks d n).length } hm
            (acc ++ chunkRead chunks d n) b
  intro n d acc b
  exact main (n + (chunks.length - d.chunk_index)) n d (Nat.le_refl _) acc b

/-- One unfolding of the extraction loop at a cons cell. -/
theorem decodeLoop_cons (chunks : List (List Nat)) (dirs : List String) (total : Nat)
    (d : Dechunker) (name : String) (off : Nat) (rest : List (String × Nat))
    (acc : List (String × List Nat)) :
    decodeLoop chunks dirs total d ((name, off) :: rest) acc =
      (if d.can_read = false then (acc, d, some .sessionClosed)
       else if parentOk dirs name then
         match writeLoop chunks d (endsOf total rest - off) [] with
         | (d2, bytes, some e) => (acc ++ [(name, bytes)], d2, some e)
         | (d2, bytes, none) =>
           decodeLoop chunks dirs total d2 rest (acc ++ [(name, bytes)])
       else (acc, d, some .outFileNotFound)) := rfl

/-- The extraction loop is likewise independent of the dechunker's stored
`bytes_per_chunk`. -/
theorem decodeLoop_bpc (chunks : List (List Nat)) (dirs : List String) (total : Nat) :
    ∀ (ps : List (String × Nat)) (d : Dechunker) (acc : List (String × List Nat))
      (b : Nat),
    decodeLoop chunks dirs total { d with bytes_per_chunk := b } ps acc =
      (fun r : List (String × List Nat) × Dechunker × Option DecErr =>
        (r.1, { r.2.1 with bytes_per_chunk := b }, r.2.2))
        (decodeLoop chunks dirs total d ps acc) := by
  intro ps
  induction ps with
  | nil =>
    intro d acc b
    rfl
  | cons hd rest ih =>
    intro d acc b
    obtain ⟨name, off⟩ := hd
    rw [decodeLoop_cons, decodeLoop_cons]
    have hcrb : ({ d with bytes_per_chunk := b } : Dechunker).can_read = d.can_read := rfl
    by_cases hcr : d.can_read = false
    · rw [if_pos (hcrb.trans hcr), if_pos hcr]
    · rw [if_neg (fun h => hcr (hcrb.symm.trans h)), if_neg hcr]
      by_cases hpo : parentOk dirs name
      · rw [if_pos hpo, if_pos hpo]
        have hw := writeLoop_bpc chunks (endsOf total rest - off) d [] b
        rw [hw]
        cases hres : writeLoop chunks d (endsOf total rest - off) [] with
        | mk d2 r2 =>
          obtain ⟨bytes, err⟩ := r2
          cases err with
          | none =>
            simpa using ih d2 (acc ++ [(name, bytes)]) b
          | some e =>
            rfl
      · rw [if_neg hpo, if_neg hpo]

/-- `decode` on a fully present header, after a successful `chunk-0`
open. -/
theorem decode_some_init (chunks : List (List Nat)) (dirs : List String)
    (b : Nat) (p : List (String × Nat)) (tb : Nat) (d : Dechunker)
    (hinit : Dechunker.init chunks ((b / (1024 * 1024)) * 1024 * 1024) = some d) :
    decode chunks dirs ⟨some b, some p, some tb⟩ =
      (match decodeLoop chunks dirs tb d (sortPositions p) [] with
       | (files, d2, err) =>
         { raised := none, errored := err.isSome, written := files,
           chunksOpened := d2.chunk_index + 1, chunkHandleOpen := d2.chunk_open }) := by
  rw [decode_some, hinit]

/-- C10: the observable outcome of `decode` — the reconstructed files, the
error flag, any escaped exception and the number of chunk files opened —
does not depend on the `bytes_per_chunk` value stored in the header: the
value is floor-divided on line 232, stored by `_Dechunker.__init__`
(line 150) and never read again; the reader only advances on end-of-file
of the current chunk. -/
theorem claim_C10_capacity_ignored (chunks : List (List Nat)) (dirs : List String)
    (ps : Option (List (String × Nat))) (tb : Option Nat) (b1 b2 : Nat) :
    (decode chunks dirs ⟨some b1, ps, tb⟩).written =
      (decode chunks dirs ⟨some b2, ps, tb⟩).written ∧
    (decode chunks dirs ⟨some b1, ps, tb⟩).errored =
      (decode chunks dirs ⟨some b2, ps, tb⟩).errored ∧
    (decode chunks dirs ⟨some b1, ps, tb⟩).raised =
      (decode chunks dirs ⟨some b2, ps, tb⟩).raised ∧
    (decode chunks dirs ⟨some b1, ps, tb⟩).chunksOpened =
      (decode chunks dirs ⟨some b2, ps, tb⟩).chunksOpened := by
  cases ps with
  | none => exact ⟨rfl, rfl, rfl, rfl⟩
  | some p =>
    cases tb with
    | none => exact ⟨rfl, rfl, rfl, rfl⟩
    | some t =>
      by_cases hch : chunks.length = 0
      · have h1 : Dechunker.init chunks ((b1 / (1024 * 1024)) * 1024 * 1024) = none := by
          unfold Dechunker.init
          rw [if_pos hch]
        have h2 : Dechunker.init chunks ((b2 / (1024 * 1024)) * 1024 * 1024) = none := by
          unfold Dechunker.init
          rw [if_pos hch]
        rw [decode_some, decode_some, h1, h2]
        exact ⟨rfl, rfl, rfl, rfl⟩
      · have h1 : Dechunker.init chunks ((b1 / (1024 * 1024)) * 1024 * 1024) =
            some ⟨(b1 / (1024 * 1024)) * 1024 * 1024, 0, 0, true, true⟩ := by
          unfold Dechunker.init
          rw [if_neg hch]
        have h2 : Dechunker.init chunks ((b2 / (1024 * 1024)) * 1024 * 1024) =
            some ⟨(b2 / (1024 * 1024)) * 1024 * 1024, 0, 0, true, true⟩ := by
          unfold Dechunker.init
          rw [if_neg hch]
        rw [decode_some_init chunks dirs b1 p t _ h1,
          decode_some_init chunks dirs b2 p t _ h2]
        have hb : decodeLoop chunks dirs t
            ⟨(b2 / (1024 * 1024)) * 1024 * 1024, 0, 0, true, true⟩
            (sortPositions p) [] =
            (fun r : List (String × List Nat) × Dechunker × Option DecErr =>
              (r.1,
                { r.2.1 with bytes_per_chunk := (b2 / (1024 * 1024)) * 1024 * 1024 },
                r.2.2))
            (decodeLoop chunks dirs t
              ⟨(b1 / (1024 * 1024)) * 1024 * 1024, 0, 0, true, true⟩
              (sortPositions p) []) :=
          decodeLoop_bpc chunks dirs t (sortPositions p)
            ⟨(b1 / (1024 * 1024)) * 1024 * 1024, 0, 0, true, true⟩ []
            ((b2 / (1024 * 1024)) * 1024 * 1024)
        rw [hb]
        cases hres : decodeLoop chunks dirs t
            ⟨(b1 / (1024 * 1024)) * 1024 * 1024, 0, 0, true, true⟩
            (sortPositions p) [] with
        | mk files r2 =>
          obtain ⟨d2, err⟩ := r2
          exact ⟨rfl, rfl, rfl, rfl⟩

/-! ## Decoder invariant and read-loop correctness -/

/-- The logical stream position of a reader: every byte of the chunks
before the current one, plus the read position within it. -/
def sPos (chunks : List (List Nat)) (d : Dechunker) : Nat :=
  (chunks.take d.chunk_index).flatten.length + d.pos

/-- State invariant of an open `_Dechunker`: the current chunk file
exists, the read position is within it, and the session is open with the
current chunk's handle open. -/
structure DechunkerInv (chunks : List (List Nat)) (d : Dechunker) : Prop where
  lt : d.chunk_index < chunks.length
  ple : d.pos ≤ (chunks.getD d.chunk_index []).length
  canr : d.can_read = true
  copen : d.chunk_open = true

theorem flatten_decomp (chunks : List (List Nat)) (i : Nat) (h : i < chunks.length) :
    chunks.flatten =
      (chunks.take i).flatten ++ chunks.getD i [] ++ (chunks.drop (i + 1)).flatten := by
  conv_lhs => rw [← List.take_append_drop i chunks]
  rw [List.flatten_append, List.drop_eq_getElem_cons h, List.flatten_cons,
    List.getD_eq_getElem _ _ h, ← List.append_assoc]

theorem flatten_take_succ (chunks : List (List Nat)) (i : Nat) (h : i < chunks.length) :
    (chunks.take (i + 1)).flatten.length =
      (chunks.take i).flatten.length + (chunks.getD i []).length := by
  rw [List.take_succ, List.flatten_append]
  simp [List.getElem?_eq_getElem h, List.getD_eq_getElem _ _ h]

theorem sPos_le (chunks : List (List Nat)) (d : Dechunker)
    (hInv : DechunkerInv chunks d) : sPos chunks d ≤ chunks.flatten.length := by
  rw [flatten_decomp chunks d.chunk_index hInv.lt]
  simp only [List.length_append, sPos]
  have := hInv.ple
  omega

/-- At the end of the last existing chunk the stream position equals the
total length of the chunk set. -/
theorem sPos_at_end (chunks : List (List Nat)) (d : Dechunker)
    (hInv : DechunkerInv chunks d)
    (hlast : ¬ d.chunk_index + 1 < chunks.length)
    (hpos : d.pos = (chunks.getD d.chunk_index []).length) :
    sPos chunks d = chunks.flatten.length := by
  have hidx : d.chunk_index + 1 = chunks.length := by
    have := hInv.lt
    omega
  rw [flatten_decomp chunks d.chunk_index hInv.lt]
  have hnil : chunks.drop (d.chunk_index + 1) = [] := by
    rw [hidx]
    exact List.drop_length chunks
  rw [hnil]
  simp only [List.flatten_nil, List.append_nil, List.length_append, sPos, hpos]

/-- What remains of the stream at the reader's position: the rest of the
current chunk, then the later chunks. -/
theorem flatten_drop_sPos (chunks : List (List Nat)) (d : Dechunker)
    (hInv : DechunkerInv chunks d) :
    chunks.flatten.drop (sPos chunks d) =
      (chunks.getD d.chunk_index []).drop d.pos ++
        (chunks.drop (d.chunk_index + 1)).flatten := by
  have h1 : ∀ (A X : List Nat) (p : Nat), (A ++ X).drop (A.length + p) = X.drop p := by
    intro A
    induction A with
    | nil =>
      intro X p
      simp
    | cons a A ih =>
      intro X p
      simp only [List.cons_append, List.length_cons, Nat.succ_add, List.drop_succ_cons]
      exact ih X p
  rw [flatten_decomp chunks d.chunk_index hInv.lt, List.append_assoc]
  unfold sPos
  rw [h1]
  exact List.drop_append_of_le_length hInv.ple

/-- Correctness of `write_n_bytes`'s loop when the owed bytes are present:
it copies exactly the next `n` stream bytes into the output file and
advances the stream position by `n`, crossing chunk boundaries as
needed. -/
theorem writeLoop_ok (chunks : List (List Nat)) :
    ∀ (n : Nat) (d : Dechunker) (acc : List Nat),
    DechunkerInv chunks d →
    sPos chunks d + n ≤ chunks.flatten.length →
    ∃ d2, writeLoop chunks d n acc =
        (d2, acc ++ (chunks.flatten.drop (sPos chunks d)).take n, none) ∧
      DechunkerInv chunks d2 ∧
      sPos chunks d2 = sPos chunks d + n := by
  have main : ∀ (N n : Nat) (d : Dechunker), n + (chunks.length - d.chunk_index) ≤ N →
      ∀ (acc : List Nat),
      DechunkerInv chunks d →
      sPos chunks d + n ≤ chunks.flatten.length →
      ∃ d2, writeLoop chunks d n acc =
          (d2, acc ++ (chunks.flatten.drop (sPos chunks d)).take n, none) ∧
        DechunkerInv chunks d2 ∧
        sPos chunks d2 = sPos chunks d + n := by
    intro N
    induction N with
    | zero =>
      intro n d hN acc hInv hle
      have hn : n = 0 := by omega
      subst hn
      rw [writeLoop_eq, if_pos rfl]
      exact ⟨d, by simp, hInv, by omega⟩
    | succ N ihN =>
      intro n d hN acc hInv hle
      by_cases hn : n = 0
      · subst hn
        rw [writeLoop_eq, if_pos rfl]
        exact ⟨d, by simp, hInv, by omega⟩
      · by_cases hb0 : (chunkRead chunks d n).length = 0
        · have hpos : d.pos = (chunks.getD d.chunk_index []).length := by
            have h1 := hInv.ple
            simp only [chunkRead, List.length_take, List.length_drop] at hb0
            omega
          by_cases hnext : d.chunk_index + 1 < chunks.length
          · rw [writeLoop_eq, if_neg hn, if_pos hb0, if_pos hnext]
            have hInv2 : DechunkerInv chunks
                { d with chunk_index := d.chunk_index + 1, pos := 0 } := by
              refine ⟨hnext, by simp, hInv.canr, hInv.copen⟩
            have hsame : sPos chunks { d with chunk_index := d.chunk_index + 1, pos := 0 } =
                sPos chunks d := by
              show (chunks.take (d.chunk_index + 1)).flatten.length + 0 = _
              rw [flatten_take_succ chunks d.chunk_index hInv.lt]
              unfold sPos
              omega
            obtain ⟨d2, heq, hInv3, hsp⟩ := ihN n
              { d with chunk_index := d.chunk_index + 1, pos := 0 }
              (by show n + (chunks.length - (d.chunk_index + 1)) ≤ N; omega) acc hInv2
              (by rw [hsame]; exact hle)
            exact ⟨d2, by rw [heq, hsame], hInv3, by rw [hsp, hsame]⟩
          · exfalso
            have := sPos_at_end chunks d hInv hnext hpos
            omega
        · rw [writeLoop_eq, if_neg hn, if_neg hb0]
          have hlen : (chunkRead chunks d n).length ≤
              (chunks.getD d.chunk_index []).length - d.pos := by
            simp only [chunkRead, List.length_take, List.length_drop]
            exact min_le_right _ _
          have hlen2 : (chunkRead chunks d n).length ≤ n := by
            simp only [chunkRead, List.length_take]
            exact min_le_left _ _
          have hInv2 : DechunkerInv chunks
              { d with pos := d.pos + (chunkRead chunks d n).length } := by
            refine ⟨hInv.lt, ?_, hInv.canr, hInv.copen⟩
            show d.pos + (chunkRead chunks d n).length ≤
              (chunks.getD d.chunk_index []).length
            have := hInv.ple
            omega
          have hsp2 : sPos chunks { d with pos := d.pos + (chunkRead chunks d n).length } =
              sPos chunks d + (chunkRead chunks d n).length := by
            unfold sPos
            show (chunks.take d.chunk_index).flatten.length +
              (d.pos + (chunkRead chunks d n).length) = _
            omega
          have hbval : chunkRead chunks d n =
              (chunks.flatten.drop (sPos chunks d)).take ((chunkRead chunks d n).length) := by
            rw [flatten_drop_sPos chunks d hInv]
            rw [List.take_append_of_le_length (by
              simp only [List.length_drop]
              exact hlen)]
            show ((chunks.getD d.chunk_index []).drop d.pos).take n =
              ((chunks.getD d.chunk_index []).drop d.pos).take
                ((((chunks.getD d.chunk_index []).drop d.pos).take n).length)
            exact (take_len_take _ n).symm
          obtain ⟨d2, heq, hInv3, hsp⟩ := ihN (n - (chunkRead chunks d n).length)
            { d with pos := d.pos + (chunkRead chunks d n).length }
            (by
              show n - (chunkRead chunks d n).length + (chunks.length - d.chunk_index) ≤ N
              have hb1 : 1 ≤ (chunkRead chunks d n).length := by omega
              omega)
            (acc ++ chunkRead chunks d n) hInv2
            (by rw [hsp2]; omega)
          refine ⟨d2, ?_, hInv3, by rw [hsp, hsp2]; omega⟩
          rw [heq, hsp2]
          congr 1
          rw [List.append_assoc]
          congr 1
          have hsplit : (chunks.flatten.drop (sPos chunks d)).take n =
              (chunks.flatten.drop (sPos chunks d)).take ((chunkRead chunks d n).length) ++
              ((chunks.flatten.drop (sPos chunks d)).drop
                ((chunkRead chunks d n).length)).take (n - (chunkRead chunks d n).length) := by
            rw [← List.take_add]
            congr 1
            omega
          rw [hsplit, ← hbval, List.drop_drop, Nat.add_comm]
  intro n d acc hInv hle
  exact main (n + (chunks.length - d.chunk_index)) n d (Nat.le_refl _) acc hInv hle

/-- Behaviour of `write_n_bytes`'s loop when more bytes are owed than the
chunk set holds: every remaining stream byte is copied into the output
file, then opening the next chunk raises `FileNotFoundError`; the partial
output remains. -/
theorem writeLoop_err (chunks : List (List Nat)) :
    ∀ (n : Nat) (d : Dechunker) (acc : List Nat),
    DechunkerInv chunks d →
    chunks.flatten.length < sPos chunks d + n →
    ∃ d2, writeLoop chunks d n acc =
        (d2, acc ++ chunks.flatten.drop (sPos chunks d), some .chunkMissing) ∧
      d2.chunk_open = false ∧ d2.can_read = true := by
  have main : ∀ (N n : Nat) (d : Dechunker), n + (chunks.length - d.chunk_index) ≤ N →
      ∀ (acc : List Nat),
      DechunkerInv chunks d →
      chunks.flatten.length < sPos chunks d + n →
      ∃ d2, writeLoop chunks d n acc =
          (d2, acc ++ chunks.flatten.drop (sPos chunks d), some .chunkMissing) ∧
        d2.chunk_open = false ∧ d2.can_read = true := by
    intro N
    induction N with
    | zero =>
      intro n d hN acc hInv hgt
      exfalso
      have h1 := sPos_le chunks d hInv
      have hn : n = 0 := by omega
      omega
    | succ N ihN =>
      intro n d hN acc hInv hgt
      by_cases hn : n = 0
      · exfalso
        have h1 := sPos_le chunks d hInv
        omega
      · by_cases hb0 : (chunkRead chunks d n).length = 0
        · have hpos : d.pos = (chunks.getD d.chunk_index []).length := by
            have h1 := hInv.ple
            simp only [chunkRead, List.length_take, List.length_drop] at hb0
            omega
          by_cases hnext : d.chunk_index + 1 < chunks.length
          · rw [writeLoop_eq, if_neg hn, if_pos hb0, if_pos hnext]
            have hInv2 : DechunkerInv chunks
                { d with chunk_index := d.chunk_index + 1, pos := 0 } :=
              ⟨hnext, by simp, hInv.canr, hInv.copen⟩
            have hsame : sPos chunks { d with chunk_index := d.chunk_index + 1, pos := 0 } =
                sPos chunks d := by
              show (chunks.take (d.chunk_index + 1)).flatten.length + 0 = _
              rw [flatten_take_succ chunks d.chunk_index hInv.lt]
              unfold sPos
              omega
            obtain ⟨d2, heq, h2, h3⟩ := ihN n
              { d with chunk_index := d.chunk_index + 1, pos := 0 }
              (by show n + (chunks.length - (d.chunk_index + 1)) ≤ N; omega) acc hInv2
              (by rw [hsame]; exact hgt)
            exact ⟨d2, by rw [heq, hsame], h2, h3⟩
          · rw [writeLoop_eq, if_neg hn, if_pos hb0, if_neg hnext]
            have hend := sPos_at_end chunks d hInv hnext hpos
            refine ⟨{ d with chunk_open := false }, ?_, rfl, hInv.canr⟩
            rw [hend, List.drop_length, List.append_nil]
        · rw [writeLoop_eq, if_neg hn, if_neg hb0]
          have hlen : (chunkRead chunks d n).length ≤
              (chunks.getD d.chunk_index []).length - d.pos := by
            simp only [chunkRead, List.length_take, List.length_drop]
            exact min_le_right _ _
          have hlen2 : (chunkRead chunks d n).length ≤ n := by
            simp only [chunkRead, List.length_take]
            exact min_le_left _ _
          have hInv2 : DechunkerInv chunks
              { d with pos := d.pos + (chunkRead chunks d n).length } := by
            refine ⟨hInv.lt, ?_, hInv.canr, hInv.copen⟩
            show d.pos + (chunkRead chunks d n).length ≤
              (chunks.getD d.chunk_index []).length
            have := hInv.ple
            omega
          have hsp2 : sPos chunks { d with pos := d.pos + (chunkRead chunks d n).length } =
              sPos chunks d + (chunkRead chunks d n).length := by
            unfold sPos
            show (chunks.take d.chunk_index).flatten.length +
              (d.pos + (chunkRead chunks d n).length) = _
            omega
          have hbval : chunkRead chunks d n =
              (chunks.flatten.drop (sPos chunks d)).take ((chunkRead chunks d n).length) := by
            rw [flatten_drop_sPos chunks d hInv]
            rw [List.take_append_of_le_length (by
              simp only [List.length_drop]
              exact hlen)]
            show ((chunks.getD d.chunk_index []).drop d.pos).take n =
              ((chunks.getD d.chunk_index []).drop d.pos).take
                ((((chunks.getD d.chunk_index []).drop d.pos).take n).length)
            exact (take_len_take _ n).symm
          obtain ⟨d2, heq, h2, h3⟩ := ihN (n - (chunkRead chunks d n).length)
            { d with pos := d.pos + (chunkRead chunks d n).length }
            (by
              show n - (chunkRead chunks d n).length + (chunks.length - d.chunk_index) ≤ N
              have hb1 : 1 ≤ (chunkRead chunks d n).length := by omega
              omega)
            (acc ++ chunkRead chunks d n) hInv2
            (by rw [hsp2]; omega)
          refine ⟨d2, ?_, h2, h3⟩
          rw [heq, hsp2, List.append_assoc]
          congr 2
          conv_rhs => rw [← List.take_append_drop ((chunkRead chunks d n).length)
            (chunks.flatten.drop (sPos chunks d))]
          rw [← hbval, List.drop_drop, Nat.add_comm]
  intro n d acc hInv hgt
  exact main (n + (chunks.length - d.chunk_index)) n d (Nat.le_refl _) acc hInv hgt

/-! ## Decode-loop correctness -/

/-- The slices of the stream `S` that the extraction loop writes for a
sorted positions table: each entry gets the bytes from its offset up to
the next entry's offset (or `total` for the last entry). -/
def segmentsOf (S : List Nat) (total : Nat) : List (String × Nat) → List (String × List Nat)
  | [] => []
  | (name, off) :: rest =>
    (name, (S.drop off).take (endsOf total rest - off)) :: segmentsOf S total rest

/-- Success of the extraction loop: with all owed bytes present in the
chunk set, every entry of the sorted table is written in full. -/
theorem decodeLoop_ok (chunks : List (List Nat)) (dirs : List String) (total : Nat) :
    ∀ (ps : List (String × Nat)) (d : Dechunker) (acc : List (String × List Nat)),
    DechunkerInv chunks d →
    (ps.map Prod.snd ++ [total]).Pairwise (· ≤ ·) →
    total ≤ chunks.flatten.length →
    (∀ p ∈ ps, parentOk dirs p.1 = true) →
    (∀ x ∈ ps.head?, sPos chunks d = (x : String × Nat).2) →
    ∃ d2, decodeLoop chunks dirs total d ps acc =
        (acc ++ segmentsOf chunks.flatten total ps, d2, none) ∧
      DechunkerInv chunks d2 := by
  intro ps
  induction ps with
  | nil =>
    intro d acc hInv _ _ _ _
    exact ⟨d, by simp [decodeLoop, segmentsOf], hInv⟩
  | cons hd rest ih =>
    intro d acc hInv hpw htot hpo hhead
    obtain ⟨name, off⟩ := hd
    have hsp : sPos chunks d = off := hhead (name, off) rfl
    have hoff_ends : off ≤ endsOf total rest := by
      cases rest with
      | nil =>
        have := hpw
        simp only [List.map_cons, List.map_nil, List.nil_append,
          List.singleton_append, List.pairwise_cons] at this
        exact (this.1 total (by simp)).trans (by simp [endsOf])
      | cons q qs =>
        simp only [List.map_cons, List.pairwise_cons, List.cons_append] at hpw
        exact hpw.1 q.2 (by simp)
    have hends_total : endsOf total rest ≤ total := by
      cases rest with
      | nil => simp [endsOf]
      | cons q qs =>
        simp only [List.map_cons, List.pairwise_cons, List.cons_append] at hpw
        exact hpw.2.1 total (by simp)
    rw [decodeLoop_cons, if_neg (by rw [hInv.canr]; simp),
      if_pos (hpo (name, off) (by simp))]
    obtain ⟨dmid, hw, hInvMid, hspMid⟩ := writeLoop_ok chunks (endsOf total rest - off)
      d [] hInv (by rw [hsp]; omega)
    rw [hsp] at hw hspMid
    rw [List.nil_append] at hw
    rw [hw]
    have hspMid2 : sPos chunks dmid = endsOf total rest := by
      rw [hspMid]
      omega
    have hpw2 : (rest.map Prod.snd ++ [total]).Pairwise (· ≤ ·) := by
      simp only [List.map_cons, List.cons_append, List.pairwise_cons] at hpw
      exact hpw.2
    have hhead2 : ∀ x ∈ rest.head?, sPos chunks dmid = (x : String × Nat).2 := by
      intro x hx
      cases rest with
      | nil => simp at hx
      | cons q qs =>
        simp only [List.head?_cons, Option.mem_def, Option.some.injEq] at hx
        subst hx
        rw [hspMid2]
        rfl
    obtain ⟨d2, heq, hInv2⟩ := ih dmid (acc ++ [(name, (chunks.flatten.drop off).take
      (endsOf total rest - off))]) hInvMid hpw2 htot
      (fun p hp => hpo p (by simp [hp])) hhead2
    refine ⟨d2, ?_, hInv2⟩
    show decodeLoop chunks dirs total dmid rest
        (acc ++ [(name, (chunks.flatten.drop off).take (endsOf total rest - off))]) =
      (acc ++ segmentsOf chunks.flatten total ((name, off) :: rest), d2, none)
    rw [heq]
    simp [segmentsOf]

/-- The slices the extraction loop writes when the chunk set is truncated:
entries whose end fits within the available bytes are written in full; the
first entry reaching past the end is written partially (every remaining
byte) and the loop aborts, so no later entry is written. -/
def truncSegments (S : List Nat) (total : Nat) :
    List (String × Nat) → List (String × List Nat)
  | [] => []
  | (name, off) :: rest =>
    if endsOf total rest ≤ S.length then
      (name, (S.drop off).take (endsOf total rest - off)) :: truncSegments S total rest
    else [(name, S.drop off)]

/-- Failure of the extraction loop on a truncated chunk set: the loop
reconstructs every entry that fits, writes the crossing entry partially,
and aborts with the missing-chunk error. -/
theorem decodeLoop_err (chunks : List (List Nat)) (dirs : List String) (total : Nat) :
    ∀ (ps : List (String × Nat)) (d : Dechunker) (acc : List (String × List Nat)),
    DechunkerInv chunks d →
    (ps.map Prod.snd ++ [total]).Pairwise (· ≤ ·) →
    chunks.flatten.length < total →
    (∀ p ∈ ps, parentOk dirs p.1 = true) →
    (∀ x ∈ ps.head?, sPos chunks d = (x : String × Nat).2) →
    ps ≠ [] →
    ∃ d2, decodeLoop chunks dirs total d ps acc =
        (acc ++ truncSegments chunks.flatten total ps, d2, some .chunkMissing) := by
  intro ps
  induction ps with
  | nil =>
    intro d acc _ _ _ _ _ hne
    exact absurd rfl hne
  | cons hd rest ih =>
    intro d acc hInv hpw hshort hpo hhead _
    obtain ⟨name, off⟩ := hd
    have hsp : sPos chunks d = off := hhead (name, off) rfl
    have hoff_ends : off ≤ endsOf total rest := by
      cases rest with
      | nil =>
        have := hpw
        simp only [List.map_cons, List.map_nil, List.nil_append,
          List.singleton_append, List.pairwise_cons] at this
        exact (this.1 total (by simp)).trans (by simp [endsOf])
      | cons q qs =>
        simp only [List.map_cons, List.pairwise_cons, List.cons_append] at hpw
        exact hpw.1 q.2 (by simp)
    rw [decodeLoop_cons, if_neg (by rw [hInv.canr]; simp),
      if_pos (hpo (name, off) (by simp))]
    by_cases hfit : endsOf total rest ≤ chunks.flatten.length
    · have hrest_ne : rest ≠ [] := by
        intro hr
        subst hr
        simp only [endsOf] at hfit
        omega
      obtain ⟨dmid, hw, hInvMid, hspMid⟩ := writeLoop_ok chunks (endsOf total rest - off)
        d [] hInv (by rw [hsp]; omega)
      rw [hsp] at hw hspMid
      rw [List.nil_append] at hw
      rw [hw]
      have hspMid2 : sPos chunks dmid = endsOf total rest := by
        rw [hspMid]
        omega
      have hpw2 : (rest.map Prod.snd ++ [total]).Pairwise (· ≤ ·) := by
        simp only [List.map_cons, List.cons_append, List.pairwise_cons] at hpw
        exact hpw.2
      have hhead2 : ∀ x ∈ rest.head?, sPos chunks dmid = (x : String × Nat).2 := by
        intro x hx
        cases rest with
        | nil => simp at hx
        | cons q qs =>
          simp only [List.head?_cons, Option.mem_def, Option.some.injEq] at hx
          subst hx
          rw [hspMid2]
          rfl
      obtain ⟨d2, heq⟩ := ih dmid (acc ++ [(name, (chunks.flatten.drop off).take
        (endsOf total rest - off))]) hInvMid hpw2 hshort
        (fun p hp => hpo p (by simp [hp])) hhead2 hrest_ne
      refine ⟨d2, ?_⟩
      show decodeLoop chunks dirs total dmid rest
          (acc ++ [(name, (chunks.flatten.drop off).take (endsOf total rest - off))]) =
        (acc ++ truncSegments chunks.flatten total ((name, off) :: rest), d2,
          some .chunkMissing)
      rw [heq]
      simp only [truncSegments, if_pos hfit]
      simp
    · obtain ⟨d2, hw, _, _⟩ := writeLoop_err chunks (endsOf total rest - off) d []
        hInv (by rw [hsp]; omega)
      rw [hsp] at hw
      rw [List.nil_append] at hw
      rw [hw]
      refine ⟨d2, ?_⟩
      show (acc ++ [(name, chunks.flatten.drop off)], d2, some DecErr.chunkMissing) =
        (acc ++ truncSegments chunks.flatten total ((name, off) :: rest), d2,
          some .chunkMissing)
      simp only [truncSegments, if_neg hfit]

/-! ## Glue: the recorded positions drive the decoder correctly -/

theorem positionsOf_mem_fst (files : List (String × List Nat)) :
    ∀ (s : Nat) (p : String × Nat), p ∈ positionsOf s files →
    p.1 ∈ files.map Prod.fst := by
  induction files with
  | nil =>
    intro s p hp
    simp [positionsOf] at hp
  | cons hd rest ih =>
    intro s p hp
    obtain ⟨name, data⟩ := hd
    simp only [positionsOf, List.mem_cons] at hp
    rcases hp with hp | hp
    · subst hp
      simp
    · simp only [List.map_cons, List.mem_cons]
      exact Or.inr (ih _ p hp)

theorem positionsOf_ge (files : List (String × List Nat)) :
    ∀ (s : Nat) (x : String × Nat), x ∈ positionsOf s files → s ≤ x.2 := by
  induction files with
  | nil =>
    intro s x hx
    simp [positionsOf] at hx
  | cons hd rest ih =>
    intro s x hx
    obtain ⟨name, data⟩ := hd
    simp only [positionsOf, List.mem_cons] at hx
    rcases hx with hx | hx
    · subst hx
      exact Nat.le_refl s
    · have := ih _ x hx
      omega

/-- The offsets a chunker records, with the total appended, are
non-decreasing. -/
theorem positionsOf_pairwise (files : List (String × List Nat)) :
    ∀ (s total : Nat), total = s + (files.map Prod.snd).flatten.length →
    ((positionsOf s files).map Prod.snd ++ [total]).Pairwise (· ≤ ·) := by
  induction files with
  | nil =>
    intro s total _
    simp [positionsOf]
  | cons hd rest ih =>
    intro s total htot
    obtain ⟨name, data⟩ := hd
    simp only [positionsOf, List.map_cons, List.cons_append, List.pairwise_cons]
    constructor
    · intro x hx
      simp only [List.mem_append, List.mem_singleton, List.mem_map] at hx
      rcases hx with ⟨y, hy, hxy⟩ | hx
      · subst hxy
        have := positionsOf_ge rest (s + data.length) y hy
        omega
      · subst hx
        simp only [List.map_cons, List.flatten_cons, List.length_append] at htot
        omega
    · apply ih (s + data.length) total
      simp only [List.map_cons, List.flatten_cons, List.length_append] at htot
      omega

theorem insertByOffset_at_end (x : String × Nat) (l : List (String × Nat))
    (h : ∀ y ∈ l, y.2 ≤ x.2) : insertByOffset x l = l ++ [x] := by
  induction l with
  | nil => rfl
  | cons y ys ih =>
    unfold insertByOffset
    rw [if_neg (by
      have := h y (by simp)
      omega)]
    rw [ih (fun z hz => h z (by simp [hz]))]
    rfl

/-- A table already sorted by offset is a fixed point of the stable
sort. -/
theorem sortPositions_eq_self (l : List (String × Nat))
    (h : l.Pairwise (fun a b => a.2 ≤ b.2)) : sortPositions l = l := by
  induction l using List.reverseRecOn with
  | nil => rfl
  | append_singleton l x ih =>
    have hsplit := List.pairwise_append.mp h
    unfold sortPositions
    rw [List.foldl_append]
    show insertByOffset x (sortPositions l) = l ++ [x]
    rw [ih hsplit.1]
    exact insertByOffset_at_end x l (fun y hy => hsplit.2.2 y hy x (by simp))

/-- For the last entry the slice runs to `total`; for any other entry it
runs to the next recorded offset, which is the current offset plus the
entry's length. -/
theorem endsOf_positionsOf (rest : List (String × List Nat)) (t total : Nat)
    (h : total = t + (rest.map Prod.snd).flatten.length) :
    endsOf total (positionsOf t rest) = t := by
  cases rest with
  | nil =>
    simp only [List.map_nil, List.flatten_nil, List.length_nil, Nat.add_zero] at h
    simp [positionsOf, endsOf, h]
  | cons q qs =>
    obtain ⟨n2, d2⟩ := q
    simp [positionsOf, endsOf]

/-- Reading back the recorded positions over the full stream reproduces
the original files. -/
theorem segmentsOf_positionsOf (files : List (String × List Nat)) :
    ∀ (s : Nat) (S : List Nat) (total : Nat),
    S.drop s = (files.map Prod.snd).flatten →
    total = s + (files.map Prod.snd).flatten.length →
    segmentsOf S total (positionsOf s files) = files := by
  induction files with
  | nil =>
    intro s S total _ _
    rfl
  | cons hd rest ih =>
    intro s S total hdrop htot
    obtain ⟨name, data⟩ := hd
    simp only [List.map_cons, List.flatten_cons, List.length_append] at htot
    have hends : endsOf total (positionsOf (s + data.length) rest) = s + data.length := by
      apply endsOf_positionsOf
      omega
    simp only [positionsOf, segmentsOf, hends]
    have h1 : S.drop s = data ++ (rest.map Prod.snd).flatten := by
      rw [hdrop]
      simp
    have hdrop2 : S.drop (s + data.length) = (rest.map Prod.snd).flatten := by
      rw [← List.drop_drop, h1]
      exact List.drop_left data _
    rw [Nat.add_sub_cancel_left, h1, List.take_left,
      ih (s + data.length) S total hdrop2 (by omega)]

/-! ## Claim C1 — the round trip -/

/-- C1 amended: for every file set with distinct names, every capacity of
at least one byte, and an output directory in which each file's parent
directory already exists (decode creates none — see C5; flat names need
no directories at all), encode succeeds, writes the header, and decode on
the produced chunk set reconstructs exactly the original relative paths
with identical byte content, in order. -/
theorem claim_C1_round_trip (files : List (String × List Nat)) (bpc : Nat)
    (dirs : List String) (hb : 1 ≤ bpc) (hn : (files.map Prod.fst).Nodup)
    (hdirs : ∀ f ∈ files, parentOk dirs f.1 = true) :
    (encode files bpc).errored = false ∧
    (encode files bpc).header =
      some ⟨bpc, (encode files bpc).positions, (encode files bpc).total_bytes⟩ ∧
    (decode (encode files bpc).chunks dirs
      (rawOfHeader ⟨bpc, (encode files bpc).positions,
        (encode files bpc).total_bytes⟩)).raised = none ∧
    (decode (encode files bpc).chunks dirs
      (rawOfHeader ⟨bpc, (encode files bpc).positions,
        (encode files bpc).total_bytes⟩)).errored = false ∧
    (decode (encode files bpc).chunks dirs
      (rawOfHeader ⟨bpc, (encode files bpc).positions,
        (encode files bpc).total_bytes⟩)).written = files := by
  obtain ⟨e1, e2, e3, e4, e5, closed, current, hchunks, hfull, hstream, hcur, hmod,
    hdiv, hnames⟩ := encode_spec files bpc hb hn
  have hflat : (encode files bpc).chunks.flatten = (files.map Prod.snd).flatten := by
    rw [hchunks, List.flatten_append, List.flatten_cons, List.flatten_nil,
      List.append_nil, hstream]
  have hlen0 : ¬ (encode files bpc).chunks.length = 0 := by
    rw [hchunks]
    simp
  have hinit : Dechunker.init (encode files bpc).chunks
      ((bpc / (1024 * 1024)) * 1024 * 1024) =
      some ⟨(bpc / (1024 * 1024)) * 1024 * 1024, 0, 0, true, true⟩ := by
    unfold Dechunker.init
    rw [if_neg hlen0]
  have hraw : rawOfHeader ⟨bpc, (encode files bpc).positions,
      (encode files bpc).total_bytes⟩ =
      (⟨some bpc, some (positionsOf 0 files),
        some (files.map Prod.snd).flatten.length⟩ : RawHeader) := by
    rw [e3, e4]
    rfl
  have hpwAll : ((positionsOf 0 files).map Prod.snd ++
      [(files.map Prod.snd).flatten.length]).Pairwise (· ≤ ·) :=
    positionsOf_pairwise files 0 _ (by omega)
  have hsorted : sortPositions (positionsOf 0 files) = positionsOf 0 files := by
    apply sortPositions_eq_self
    apply List.pairwise_map.mp
    exact (List.pairwise_append.mp hpwAll).1
  have hInv0 : DechunkerInv (encode files bpc).chunks
      ⟨(bpc / (1024 * 1024)) * 1024 * 1024, 0, 0, true, true⟩ :=
    ⟨by
      show 0 < (encode files bpc).chunks.length
      omega, Nat.zero_le _, rfl, rfl⟩
  have hpar : ∀ p ∈ positionsOf 0 files, parentOk dirs p.1 = true := by
    intro p hp
    have hmem := positionsOf_mem_fst files 0 p hp
    obtain ⟨f, hf, hfp⟩ := List.mem_map.mp hmem
    rw [← hfp]
    exact hdirs f hf
  have hhead0 : ∀ x ∈ (positionsOf 0 files).head?,
      sPos (encode files bpc).chunks
        ⟨(bpc / (1024 * 1024)) * 1024 * 1024, 0, 0, true, true⟩ =
        (x : String × Nat).2 := by
    intro x hx
    cases files with
    | nil => simp [positionsOf] at hx
    | cons f fs =>
      obtain ⟨nm, dt⟩ := f
      simp only [positionsOf, List.head?_cons, Option.mem_def, Option.some.injEq] at hx
      subst hx
      show (List.take 0 (encode ((nm, dt) :: fs) bpc).chunks).flatten.length + 0 = 0
      simp
  obtain ⟨d2, hloop, _⟩ := decodeLoop_ok (encode files bpc).chunks dirs
    (files.map Prod.snd).flatten.length (positionsOf 0 files)
    ⟨(bpc / (1024 * 1024)) * 1024 * 1024, 0, 0, true, true⟩ [] hInv0 hpwAll
    (by rw [hflat]) hpar hhead0
  have hseg : segmentsOf (encode files bpc).chunks.flatten
      (files.map Prod.snd).flatten.length (positionsOf 0 files) = files := by
    rw [hflat]
    exact segmentsOf_positionsOf files 0 _ _ (by simp) (by omega)
  have houtcome : decode (encode files bpc).chunks dirs
      (rawOfHeader ⟨bpc, (encode files bpc).positions,
        (encode files bpc).total_bytes⟩) =
      { raised := none, errored := false, written := files,
        chunksOpened := d2.chunk_index + 1, chunkHandleOpen := d2.chunk_open } := by
    rw [hraw, decode_some_init _ _ bpc (positionsOf 0 files) _ _ hinit, hsorted, hloop]
    rw [hseg] at hloop ⊢
    simp
  refine ⟨e1, by rw [e3, e4]; exact e5, ?_, ?_, ?_⟩ <;> rw [houtcome]

/-- Witness for the amended C1: two files, one in a subdirectory that
exists in the output directory, capacity 2 bytes. -/
theorem claim_C1_witness :
    (encode [("d/f", [3]), ("g", [1, 2, 3])] 2).errored = false ∧
    (encode [("d/f", [3]), ("g", [1, 2, 3])] 2).header =
      some ⟨2, (encode [("d/f", [3]), ("g", [1, 2, 3])] 2).positions,
        (encode [("d/f", [3]), ("g", [1, 2, 3])] 2).total_bytes⟩ ∧
    (decode (encode [("d/f", [3]), ("g", [1, 2, 3])] 2).chunks ["d"]
      (rawOfHeader ⟨2, (encode [("d/f", [3]), ("g", [1, 2, 3])] 2).positions,
        (encode [("d/f", [3]), ("g", [1, 2, 3])] 2).total_bytes⟩)).raised = none ∧
    (decode (encode [("d/f", [3]), ("g", [1, 2, 3])] 2).chunks ["d"]
      (rawOfHeader ⟨2, (encode [("d/f", [3]), ("g", [1, 2, 3])] 2).positions,
        (encode [("d/f", [3]), ("g", [1, 2, 3])] 2).total_bytes⟩)).errored = false ∧
    (decode (encode [("d/f", [3]), ("g", [1, 2, 3])] 2).chunks ["d"]
      (rawOfHeader ⟨2, (encode [("d/f", [3]), ("g", [1, 2, 3])] 2).positions,
        (encode [("d/f", [3]), ("g", [1, 2, 3])] 2).total_bytes⟩)).written =
      [("d/f", [3]), ("g", [1, 2, 3])] :=
  claim_C1_round_trip [("d/f", [3]), ("g", [1, 2, 3])] 2 ["d"] (by omega) (by decide)
    (by decide)

/-! ## Claim C6 — a missing final chunk -/

theorem flatten_len_full (L : List (List Nat)) (bpc : Nat)
    (h : ∀ ch ∈ L, ch.length = bpc) : L.flatten.length = L.length * bpc := by
  induction L with
  | nil => simp
  | cons hd tl ih =>
    simp only [List.flatten_cons, List.length_append, List.length_cons]
    rw [h hd (by simp), ih (fun ch hch => h ch (by simp [hch]))]
    ring

/-- The spec's description of a failed decode (§4.5 step 5, §7, §8): with
only `avail` stream bytes available, every file that fits is reconstructed
in full, the file in progress when the bytes run out remains partially
written — holding exactly the bytes up to `avail` — and no later file is
created.  `off` is the running logical offset. -/
def truncWrites (avail : Nat) : List (String × List Nat) → Nat → List (String × List Nat)
  | [], _ => []
  | (name, data) :: rest, off =>
    if off + data.length ≤ avail then
      (name, data) :: truncWrites avail rest (off + data.length)
    else [(name, data.take (avail - off))]

/-- What the extraction loop writes over a truncated stream agrees with
the spec-side description `truncWrites`. -/
theorem truncSegments_positionsOf (files : List (String × List Nat)) :
    ∀ (s : Nat) (Sfull : List Nat) (total avail : Nat),
    s ≤ avail →
    Sfull.drop s = (files.map Prod.snd).flatten →
    total = s + (files.map Prod.snd).flatten.length →
    avail ≤ Sfull.length →
    truncSegments (Sfull.take avail) total (positionsOf s files) =
      truncWrites avail files s := by
  induction files with
  | nil =>
    intro s Sfull total avail _ _ _ _
    rfl
  | cons hd rest ih =>
    intro s Sfull total avail hsa hdrop htot havail
    obtain ⟨name, data⟩ := hd
    simp only [List.map_cons, List.flatten_cons, List.length_append] at htot
    have hends : endsOf total (positionsOf (s + data.length) rest) = s + data.length := by
      apply endsOf_positionsOf
      omega
    have hSlen : (Sfull.take avail).length = avail := by
      rw [List.length_take]
      omega
    have h1 : Sfull.drop s = data ++ (rest.map Prod.snd).flatten := by
      rw [hdrop]
      simp
    have hdropS : (Sfull.take avail).drop s = (Sfull.drop s).take (avail - s) :=
      List.drop_take avail s Sfull
    simp only [positionsOf, truncSegments, truncWrites, hends, hSlen]
    by_cases hfit : s + data.length ≤ avail
    · rw [if_pos hfit, if_pos hfit]
      have hdrop2 : Sfull.drop (s + data.length) = (rest.map Prod.snd).flatten := by
        rw [← List.drop_drop, h1]
        exact List.drop_left data _
      rw [Nat.add_sub_cancel_left, hdropS, h1, List.take_take,
        Nat.min_eq_left (by omega), List.take_left,
        ih (s + data.length) Sfull total avail (by omega) hdrop2 (by omega) havail]
    · rw [if_neg hfit, if_neg hfit, hdropS, h1,
        List.take_append_of_le_length (by omega)]

/-- C6 counterexample: the claim says that after the missing-chunk
failure only fully-completed earlier files are present in the output
directory.  Encode `a = [1]`, `b = [2, 3]` with capacity 2 (chunks
`[1,2]` and `[3]`), delete the last chunk, decode: `a` is reconstructed
in full, but the output directory also holds `b` partially written with
the single byte `2` of its two bytes — the `with open` block of
`write_n_bytes` created the file and its partial content stays on disk
when `FileNotFoundError` aborts the loop. -/
theorem claim_C6_counterexample :
    (encode [("a", [1]), ("b", [2, 3])] 2).chunks = [[1, 2], [3]] ∧
    (decode [[1, 2]] []
      (rawOfHeader ⟨2, (encode [("a", [1]), ("b", [2, 3])] 2).positions,
        (encode [("a", [1]), ("b", [2, 3])] 2).total_bytes⟩)).errored = true ∧
    (decode [[1, 2]] []
      (rawOfHeader ⟨2, (encode [("a", [1]), ("b", [2, 3])] 2).positions,
        (encode [("a", [1]), ("b", [2, 3])] 2).total_bytes⟩)).written =
      [("a", [1]), ("b", [2])] := by
  refine ⟨?_, ?_, ?_⟩ <;>
    simp [encode, encodeLoop, Chunker.read_from_path, readLoop, sourceRead,
      switchToNextChunk, Chunker.init, Chunker.close, decode, parseHeader, rawOfHeader,
      sortPositions, insertByOffset, Dechunker.init, decodeLoop, endsOf, writeLoop,
      chunkRead, parentOk, parentDirOf]

/-- C6 amended: deleting the last chunk file before decode (when it held
bytes, i.e. the total is not a multiple of the capacity) makes decode fail
with the missing-chunk error; every file wholly contained in the surviving
chunks is reconstructed in full, the file in progress at the failure
remains partially written with exactly the bytes the surviving chunks
held for it, and no later file is created. -/
theorem claim_C6_missing_chunk (files : List (String × List Nat)) (bpc : Nat)
    (dirs : List String) (hb : 1 ≤ bpc) (hn : (files.map Prod.fst).Nodup)
    (hdirs : ∀ f ∈ files, parentOk dirs f.1 = true)
    (hk : 2 ≤ (encode files bpc).chunks.length)
    (hnz : (encode files bpc).total_bytes % bpc ≠ 0) :
    (decode (encode files bpc).chunks.dropLast dirs
      (rawOfHeader ⟨bpc, (encode files bpc).positions,
        (encode files bpc).total_bytes⟩)).raised = none ∧
    (decode (encode files bpc).chunks.dropLast dirs
      (rawOfHeader ⟨bpc, (encode files bpc).positions,
        (encode files bpc).total_bytes⟩)).errored = true ∧
    (decode (encode files bpc).chunks.dropLast dirs
      (rawOfHeader ⟨bpc, (encode files bpc).positions,
        (encode files bpc).total_bytes⟩)).written =
      truncWrites (((encode files bpc).chunks.length - 1) * bpc) files 0 := by
  obtain ⟨e1, e2, e3, e4, e5, closed, current, hchunks, hfull, hstream, hcur, hmod,
    hdiv, hnames⟩ := encode_spec files bpc hb hn
  rw [e4] at hnz
  have hcurnz : current ≠ [] := by
    intro hc
    subst hc
    simp only [List.length_nil] at hmod
    exact hnz hmod.symm
  have hdl : (encode files bpc).chunks.dropLast = closed := by
    rw [hchunks]
    exact List.dropLast_concat
  have hclosednz : ¬ closed.length = 0 := by
    rw [hchunks] at hk
    simp only [List.length_append, List.length_cons, List.length_nil] at hk
    omega
  have havail : closed.flatten.length = ((encode files bpc).chunks.length - 1) * bpc := by
    rw [flatten_len_full closed bpc hfull, hchunks]
    simp
  have hSsplit : closed.flatten =
      (files.map Prod.snd).flatten.take closed.flatten.length := by
    rw [← hstream]
    exact (List.take_left _ _).symm
  have hshort : closed.flatten.length < (files.map Prod.snd).flatten.length := by
    rw [← hstream]
    simp only [List.length_append]
    have : current.length ≠ 0 := fun h => hcurnz (List.eq_nil_of_length_eq_zero h)
    omega
  have hfilesnz : files ≠ [] := by
    intro hf
    subst hf
    simp at hshort
  have hinit : Dechunker.init (encode files bpc).chunks.dropLast
      ((bpc / (1024 * 1024)) * 1024 * 1024) =
      some ⟨(bpc / (1024 * 1024)) * 1024 * 1024, 0, 0, true, true⟩ := by
    unfold Dechunker.init
    rw [hdl, if_neg hclosednz]
  have hraw : rawOfHeader ⟨bpc, (encode files bpc).positions,
      (encode files bpc).total_bytes⟩ =
      (⟨some bpc, some (positionsOf 0 files),
        some (files.map Prod.snd).flatten.length⟩ : RawHeader) := by
    rw [e3, e4]
    rfl
  have hpwAll : ((positionsOf 0 files).map Prod.snd ++
      [(files.map Prod.snd).flatten.length]).Pairwise (· ≤ ·) :=
    positionsOf_pairwise files 0 _ (by omega)
  have hsorted : sortPositions (positionsOf 0 files) = positionsOf 0 files := by
    apply sortPositions_eq_self
    apply List.pairwise_map.mp
    exact (List.pairwise_append.mp hpwAll).1
  have hInv0 : DechunkerInv (encode files bpc).chunks.dropLast
      ⟨(bpc / (1024 * 1024)) * 1024 * 1024, 0, 0, true, true⟩ := by
    refine ⟨?_, Nat.zero_le _, rfl, rfl⟩
    show 0 < (encode files bpc).chunks.dropLast.length
    rw [hdl]
    omega
  have hpar : ∀ p ∈ positionsOf 0 files, parentOk dirs p.1 = true := by
    intro p hp
    have hmem := positionsOf_mem_fst files 0 p hp
    obtain ⟨f, hf, hfp⟩ := List.mem_map.mp hmem
    rw [← hfp]
    exact hdirs f hf
  have hhead0 : ∀ x ∈ (positionsOf 0 files).head?,
      sPos (encode files bpc).chunks.dropLast
        ⟨(bpc / (1024 * 1024)) * 1024 * 1024, 0, 0, true, true⟩ =
        (x : String × Nat).2 := by
    intro x hx
    cases files with
    | nil => simp [positionsOf] at hx
    | cons f fs =>
      obtain ⟨nm, dt⟩ := f
      simp only [positionsOf, List.head?_cons, Option.mem_def, Option.some.injEq] at hx
      subst hx
      show (List.take 0 (encode ((nm, dt) :: fs) bpc).chunks.dropLast).flatten.length + 0 = 0
      simp
  have hpsnz : positionsOf 0 files ≠ [] := by
    cases files with
    | nil => exact absurd rfl hfilesnz
    | cons f fs =>
      obtain ⟨nm, dt⟩ := f
      simp [positionsOf]
  have hflatdl : (encode files bpc).chunks.dropLast.flatten = closed.flatten := by
    rw [hdl]
  obtain ⟨d2, hloop⟩ := decodeLoop_err (encode files bpc).chunks.dropLast dirs
    (files.map Prod.snd).flatten.length (positionsOf 0 files)
    ⟨(bpc / (1024 * 1024)) * 1024 * 1024, 0, 0, true, true⟩ [] hInv0 hpwAll
    (by rw [hflatdl]; exact hshort) hpar hhead0 hpsnz
  have hcore : truncSegments
      ((files.map Prod.snd).flatten.take closed.flatten.length)
      (files.map Prod.snd).flatten.length (positionsOf 0 files) =
      truncWrites closed.flatten.length files 0 :=
    truncSegments_positionsOf files 0 (files.map Prod.snd).flatten
      (files.map Prod.snd).flatten.length closed.flatten.length
      (Nat.zero_le _) (by simp) (by omega) (by omega)
  have hseg : truncSegments (encode files bpc).chunks.dropLast.flatten
      (files.map Prod.snd).flatten.length (positionsOf 0 files) =
      truncWrites (((encode files bpc).chunks.length - 1) * bpc) files 0 := by
    rw [hflatdl, hSsplit, hcore, havail]
  have houtcome : decode (encode files bpc).chunks.dropLast dirs
      (rawOfHeader ⟨bpc, (encode files bpc).positions,
        (encode files bpc).total_bytes⟩) =
      { raised := none, errored := true,
        written := truncWrites (((encode files bpc).chunks.length - 1) * bpc) files 0,
        chunksOpened := d2.chunk_index + 1, chunkHandleOpen := d2.chunk_open } := by
    rw [hraw, decode_some_init _ _ bpc (positionsOf 0 files) _ _ hinit, hsorted, hloop]
    rw [hseg] at hloop ⊢
    simp
  exact ⟨by rw [houtcome], by rw [houtcome], by rw [houtcome]⟩

/-- Witness for the amended C6: files `a = [1]`, `b = [2, 3]`, capacity 2;
the surviving chunk `[1, 2]` holds `a` in full and one of `b`'s two
bytes. -/
theorem claim_C6_witness :
    (decode (encode [("a", [1]), ("b", [2, 3])] 2).chunks.dropLast []
      (rawOfHeader ⟨2, (encode [("a", [1]), ("b", [2, 3])] 2).positions,
        (encode [("a", [1]), ("b", [2, 3])] 2).total_bytes⟩)).raised = none ∧
    (decode (encode [("a", [1]), ("b", [2, 3])] 2).chunks.dropLast []
      (rawOfHeader ⟨2, (encode [("a", [1]), ("b", [2, 3])] 2).positions,
        (encode [("a", [1]), ("b", [2, 3])] 2).total_bytes⟩)).errored = true ∧
    (decode (encode [("a", [1]), ("b", [2, 3])] 2).chunks.dropLast []
      (rawOfHeader ⟨2, (encode [("a", [1]), ("b", [2, 3])] 2).positions,
        (encode [("a", [1]), ("b", [2, 3])] 2).total_bytes⟩)).written =
      truncWrites (((encode [("a", [1]), ("b", [2, 3])] 2).chunks.length - 1) * 2)
        [("a", [1]), ("b", [2, 3])] 0 :=
  claim_C6_missing_chunk [("a", [1]), ("b", [2, 3])] 2 [] (by omega) (by decide)
    (by decide)
    (by simp [encode, encodeLoop, Chunker.read_from_path, readLoop, sourceRead,
      switchToNextChunk, Chunker.init, Chunker.close])
    (by simp [encode, encodeLoop, Chunker.read_from_path, readLoop, sourceRead,
      switchToNextChunk, Chunker.init, Chunker.close])

/-- C1 counterexample: the round trip as claimed — for every set of input
files — fails when a relative path contains a subdirectory component and
the output directory is fresh: encoding the single file `d/f` succeeds,
but decode never creates the directory `d` (see C5), so `open` fails, the
decode session reports an error, and nothing is reconstructed. -/
theorem claim_C1_counterexample :
    (encode [("d/f", [9])] 2).errored = false ∧
    (decode (encode [("d/f", [9])] 2).chunks []
      (rawOfHeader ⟨2, (encode [("d/f", [9])] 2).positions,
        (encode [("d/f", [9])] 2).total_bytes⟩)).errored = true ∧
    (decode (encode [("d/f", [9])] 2).chunks []
      (rawOfHeader ⟨2, (encode [("d/f", [9])] 2).positions,
        (encode [("d/f", [9])] 2).total_bytes⟩)).written = [] := by
  refine ⟨rfl, ?_, ?_⟩ <;>
    simp [encode, encodeLoop, Chunker.read_from_path, readLoop, sourceRead,
      switchToNextChunk, Chunker.init, Chunker.close, decode, parseHeader, rawOfHeader,
      sortPositions, insertByOffset, Dechunker.init, decodeLoop, endsOf, writeLoop,
      chunkRead, parentOk, parentDirOf]

end Chunkerpy
